import Mathlib

/-!
Verification of the BAG address-lookup core: the sortable postal-code key
codec, the build-side indexer and range coalescer, the binary database
format with its encoder, owned decoder and zero-copy view, and the lookup
algorithm.  Rust machine integers are modelled as `Nat` with explicit
`% 2 ^ w` wherever the source can overflow; fallible operations return
`Option` or `Except`.  Strings are modelled as their UTF-8 byte lists.
-/

namespace BagDb

/-- Wrapping 8-bit subtraction, the release-mode semantics of Rust `a - b`
on `u8` (arguments are byte values `< 256`). -/
def u8sub (a b : Nat) : Nat :=
  (a + 256 - b) % 256

/-- From `src/database/util.rs`, `encode_pc`: encode a 6-char postal code
slice `DDDDLL` into a compact sortable integer
`(digits << 18) | (l0 << 13) | (l1 << 8)` on `u32`.  Bytes are taken with
`getD` (the Rust code indexes the slice; all callers pass six bytes). -/
def encode_pc (s : List Nat) : Nat :=
  let digits := u8sub (s.getD 0 0) 48 * 1000 + u8sub (s.getD 1 0) 48 * 100
              + u8sub (s.getD 2 0) 48 * 10 + u8sub (s.getD 3 0) 48
  let l0 := u8sub (s.getD 4 0) 65
  let l1 := u8sub (s.getD 5 0) 65
  ((digits <<< 18) % 2 ^ 32) ||| ((l0 <<< 13) % 2 ^ 32) ||| ((l1 <<< 8) % 2 ^ 32)

/-- A valid normalized postal code: six bytes, four ASCII digits followed
by two uppercase ASCII letters. -/
def ValidPC (s : List Nat) : Prop :=
  s.length = 6 ∧
    (∀ i < 4, 48 ≤ s.getD i 0 ∧ s.getD i 0 ≤ 57) ∧
    (∀ i < 6, 4 ≤ i → 65 ≤ s.getD i 0 ∧ s.getD i 0 ≤ 90)

instance (s : List Nat) : Decidable (ValidPC s) := by
  unfold ValidPC
  infer_instance

/-- From `src/database/util.rs`, `normalize_postalcode`: `some` of the
ASCII-uppercased six bytes when the input is exactly six bytes long. -/
def normalize_postalcode (postalcode : List Nat) : Option (List Nat) :=
  if postalcode.length = 6 then
    some (postalcode.map fun b => if 97 ≤ b ∧ b ≤ 122 then b - 32 else b)
  else
    none

/-- Bitwise-or of a shifted value with a small value is addition:
`2 ^ n * a ||| b = 2 ^ n * a + b` whenever `b < 2 ^ n`. -/
theorem lor_high_low : ∀ (n a b : Nat), b < 2 ^ n → (2 ^ n * a) ||| b = 2 ^ n * a + b := by
  intro n
  induction n with
  | zero =>
    intro a b hb
    have hb0 : b = 0 := by omega
    subst hb0
    simp
  | succ n ih =>
    intro a b hb
    have h1 : 2 ^ (n + 1) * a = Nat.bit false (2 ^ n * a) := by
      simp [Nat.bit]
      ring
    have h2 : b = Nat.bit b.bodd b.div2 := (Nat.bit_decomp b).symm
    have hdvd : b.div2 < 2 ^ n := by
      have h3 := Nat.bodd_add_div2 b
      have h4 : 2 ^ (n + 1) = 2 * 2 ^ n := by ring
      rcases Bool.dichotomy b.bodd with h5 | h5 <;> rw [h5] at h3 <;> simp at h3 <;> omega
    rw [h1]
    conv_lhs => rw [h2]
    rw [Nat.lor_bit]
    have h6 := ih a b.div2 hdvd
    simp only [Bool.false_or]
    rw [h6]
    have h7 := Nat.bodd_add_div2 b
    rcases Bool.dichotomy b.bodd with h5 | h5 <;> rw [h5] at h7 ⊢ <;> simp [Nat.bit] at h7 ⊢ <;> ring_nf <;> omega

/-- On a valid postal code, `encode_pc` equals the plain weighted sum
`digits * 2 ^ 18 + l0 * 2 ^ 13 + l1 * 2 ^ 8`. -/
theorem encode_pc_valid_eq (s : List Nat) (h : ValidPC s) :
    encode_pc s =
      ((s.getD 0 0 - 48) * 1000 + (s.getD 1 0 - 48) * 100 +
        (s.getD 2 0 - 48) * 10 + (s.getD 3 0 - 48)) * 2 ^ 18 +
      (s.getD 4 0 - 65) * 2 ^ 13 + (s.getD 5 0 - 65) * 2 ^ 8 := by
  obtain ⟨hlen, hdig, hlet⟩ := h
  have h0 := hdig 0 (by omega)
  have h1 := hdig 1 (by omega)
  have h2 := hdig 2 (by omega)
  have h3 := hdig 3 (by omega)
  have h4 := hlet 4 (by omega) (by omega)
  have h5 := hlet 5 (by omega) (by omega)
  unfold encode_pc u8sub
  have e0 : (s.getD 0 0 + 256 - 48) % 256 = s.getD 0 0 - 48 := by omega
  have e1 : (s.getD 1 0 + 256 - 48) % 256 = s.getD 1 0 - 48 := by omega
  have e2 : (s.getD 2 0 + 256 - 48) % 256 = s.getD 2 0 - 48 := by omega
  have e3 : (s.getD 3 0 + 256 - 48) % 256 = s.getD 3 0 - 48 := by omega
  have e4 : (s.getD 4 0 + 256 - 65) % 256 = s.getD 4 0 - 65 := by omega
  have e5 : (s.getD 5 0 + 256 - 65) % 256 = s.getD 5 0 - 65 := by omega
  simp only [e0, e1, e2, e3, e4, e5, Nat.shiftLeft_eq]
  set d : Nat := (s.getD 0 0 - 48) * 1000 + (s.getD 1 0 - 48) * 100 +
      (s.getD 2 0 - 48) * 10 + (s.getD 3 0 - 48) with hd
  set x : Nat := s.getD 4 0 - 65 with hx
  set y : Nat := s.getD 5 0 - 65 with hy
  have hdlt : d ≤ 9999 := by omega
  have hxlt : x ≤ 25 := by omega
  have hylt : y ≤ 25 := by omega
  have m1 : d * 2 ^ 18 % 2 ^ 32 = d * 2 ^ 18 := by
    apply Nat.mod_eq_of_lt
    calc d * 2 ^ 18 ≤ 9999 * 2 ^ 18 := by exact Nat.mul_le_mul_right _ hdlt
    _ < 2 ^ 32 := by norm_num
  have m2 : x * 2 ^ 13 % 2 ^ 32 = x * 2 ^ 13 := by
    apply Nat.mod_eq_of_lt
    calc x * 2 ^ 13 ≤ 25 * 2 ^ 13 := by exact Nat.mul_le_mul_right _ hxlt
    _ < 2 ^ 32 := by norm_num
  have m3 : y * 2 ^ 8 % 2 ^ 32 = y * 2 ^ 8 := by
    apply Nat.mod_eq_of_lt
    calc y * 2 ^ 8 ≤ 25 * 2 ^ 8 := by exact Nat.mul_le_mul_right _ hylt
    _ < 2 ^ 32 := by norm_num
  rw [m1, m2, m3]
  have s1 : d * 2 ^ 18 = 2 ^ 18 * d := by ring
  have s2 : (2 ^ 18 * d) ||| (x * 2 ^ 13) = 2 ^ 18 * d + x * 2 ^ 13 := by
    apply lor_high_low
    calc x * 2 ^ 13 ≤ 25 * 2 ^ 13 := Nat.mul_le_mul_right _ hxlt
    _ < 2 ^ 18 := by norm_num
  have s3 : 2 ^ 18 * d + x * 2 ^ 13 = 2 ^ 13 * (2 ^ 5 * d + x) := by ring
  have s4 : (2 ^ 13 * (2 ^ 5 * d + x)) ||| (y * 2 ^ 8) = 2 ^ 13 * (2 ^ 5 * d + x) + y * 2 ^ 8 := by
    apply lor_high_low
    calc y * 2 ^ 8 ≤ 25 * 2 ^ 8 := Nat.mul_le_mul_right _ hylt
    _ < 2 ^ 13 := by norm_num
  rw [s1, s2, s3, s4]

/-- A list `<` on `cons` cells of naturals unfolds to head comparison or
equal heads and tail comparison. -/
theorem cons_lt_cons_iff (x y : Nat) (xs ys : List Nat) :
    (x :: xs) < (y :: ys) ↔ x < y ∨ (x = y ∧ xs < ys) := by
  constructor
  · intro h
    cases h with
    | rel h1 => exact Or.inl h1
    | cons h2 => exact Or.inr ⟨rfl, h2⟩
  · rintro (h | ⟨rfl, h⟩)
    · exact List.Lex.rel h
    · exact List.Lex.cons h

theorem nil_lt_nil_false : ¬(([] : List Nat) < []) := by
  intro h
  cases h

/-- A list of naturals of length six is literally a six-element list. -/
theorem exists_six (l : List Nat) (h : l.length = 6) :
    ∃ x0 x1 x2 x3 x4 x5 : Nat, l = [x0, x1, x2, x3, x4, x5] := by
  rcases l with _ | ⟨x0, l⟩
  · simp at h
  rcases l with _ | ⟨x1, l⟩
  · simp at h
  rcases l with _ | ⟨x2, l⟩
  · simp at h
  rcases l with _ | ⟨x3, l⟩
  · simp at h
  rcases l with _ | ⟨x4, l⟩
  · simp at h
  rcases l with _ | ⟨x5, l⟩
  · simp at h
  rcases l with _ | ⟨x6, l⟩
  · exact ⟨x0, x1, x2, x3, x4, x5, rfl⟩
  · simp [List.length_cons] at h

/-- Propositional glue: a four-level lexicographic disjunction followed by
a tail under the collected equalities flattens into the nested form. -/
theorem lex_glue (A0 E0 A1 E1 A2 E2 A3 E3 T : Prop) :
    ((A0 ∨ (E0 ∧ (A1 ∨ (E1 ∧ (A2 ∨ (E2 ∧ A3)))))) ∨ ((E0 ∧ E1 ∧ E2 ∧ E3) ∧ T)) ↔
      (A0 ∨ (E0 ∧ (A1 ∨ (E1 ∧ (A2 ∨ (E2 ∧ (A3 ∨ (E3 ∧ T)))))))) := by
  constructor
  · rintro ((h | ⟨e0, (h | ⟨e1, (h | ⟨e2, h⟩)⟩)⟩) | ⟨⟨e0, e1, e2, e3⟩, t⟩)
    · exact Or.inl h
    · exact Or.inr ⟨e0, Or.inl h⟩
    · exact Or.inr ⟨e0, Or.inr ⟨e1, Or.inl h⟩⟩
    · exact Or.inr ⟨e0, Or.inr ⟨e1, Or.inr ⟨e2, Or.inl h⟩⟩⟩
    · exact Or.inr ⟨e0, Or.inr ⟨e1, Or.inr ⟨e2, Or.inr ⟨e3, t⟩⟩⟩⟩
  · rintro (h | ⟨e0, (h | ⟨e1, (h | ⟨e2, (h | ⟨e3, t⟩)⟩)⟩)⟩)
    · exact Or.inl (Or.inl h)
    · exact Or.inl (Or.inr ⟨e0, Or.inl h⟩)
    · exact Or.inl (Or.inr ⟨e0, Or.inr ⟨e1, Or.inl h⟩⟩)
    · exact Or.inl (Or.inr ⟨e0, Or.inr ⟨e1, Or.inr ⟨e2, h⟩⟩⟩)
    · exact Or.inr ⟨⟨e0, e1, e2, e3⟩, t⟩

/-- C5: for valid normalized postal codes `a` and `b` (four ASCII digits
then two uppercase ASCII letters), `encode_pc a < encode_pc b` holds
exactly when `a` is smaller than `b` in byte-lexicographic order. -/
theorem encode_pc_lt_iff_lex (a b : List Nat) (ha : ValidPC a) (hb : ValidPC b) :
    encode_pc a < encode_pc b ↔ a < b := by
  have hea := encode_pc_valid_eq a ha
  have heb := encode_pc_valid_eq b hb
  obtain ⟨hal, had, hae⟩ := ha
  obtain ⟨hbl, hbd, hbe⟩ := hb
  obtain ⟨a0, a1, a2, a3, a4, a5, rfl⟩ := exists_six a hal
  obtain ⟨b0, b1, b2, b3, b4, b5, rfl⟩ := exists_six b hbl
  have ha0 := had 0 (by omega)
  have ha1 := had 1 (by omega)
  have ha2 := had 2 (by omega)
  have ha3 := had 3 (by omega)
  have ha4 := hae 4 (by omega) (by omega)
  have ha5 := hae 5 (by omega) (by omega)
  have hb0 := hbd 0 (by omega)
  have hb1 := hbd 1 (by omega)
  have hb2 := hbd 2 (by omega)
  have hb3 := hbd 3 (by omega)
  have hb4 := hbe 4 (by omega) (by omega)
  have hb5 := hbe 5 (by omega) (by omega)
  simp only [List.getD_cons_zero, List.getD_cons_succ] at ha0 ha1 ha2 ha3 ha4 ha5 hb0 hb1 hb2 hb3 hb4 hb5 hea heb
  rw [hea, heb]
  rw [cons_lt_cons_iff, cons_lt_cons_iff, cons_lt_cons_iff, cons_lt_cons_iff,
    cons_lt_cons_iff, cons_lt_cons_iff]
  have hnil : (([] : List Nat) < []) ↔ False := ⟨nil_lt_nil_false, False.elim⟩
  rw [hnil]
  have p18 : (2 : Nat) ^ 18 = 262144 := by norm_num
  have p13 : (2 : Nat) ^ 13 = 8192 := by norm_num
  have p8 : (2 : Nat) ^ 8 = 256 := by norm_num
  rw [p18, p13, p8]
  obtain ⟨dA, hdA⟩ : ∃ x, x = (a0 - 48) * 1000 + (a1 - 48) * 100 + (a2 - 48) * 10 + (a3 - 48) :=
    ⟨_, rfl⟩
  obtain ⟨dB, hdB⟩ : ∃ x, x = (b0 - 48) * 1000 + (b1 - 48) * 100 + (b2 - 48) * 10 + (b3 - 48) :=
    ⟨_, rfl⟩
  rw [← hdA, ← hdB]
  have h3 : dA * 262144 + (a4 - 65) * 8192 + (a5 - 65) * 256 <
      dB * 262144 + (b4 - 65) * 8192 + (b5 - 65) * 256 ↔
      (dA < dB ∨ (dA = dB ∧ (a4 < b4 ∨ (a4 = b4 ∧ a5 < b5)))) := by
    have hdAle : dA ≤ 9999 := by omega
    have hdBle : dB ≤ 9999 := by omega
    clear hdA hdB
    omega
  have h4 : dA < dB ↔
      (a0 < b0 ∨ (a0 = b0 ∧ (a1 < b1 ∨ (a1 = b1 ∧ (a2 < b2 ∨ (a2 = b2 ∧ a3 < b3)))))) := by
    omega
  have h5 : dA = dB ↔ (a0 = b0 ∧ a1 = b1 ∧ a2 = b2 ∧ a3 = b3) := by
    omega
  rw [h3, h4, h5]
  simp only [and_false, or_false]
  exact lex_glue _ _ _ _ _ _ _ _ _

/-- Witness for C5 at the concrete codes `"1234AB"` and `"1234AC"`. -/
theorem encode_pc_lt_iff_lex_witness :
    ValidPC [49, 50, 51, 52, 65, 66] ∧ ValidPC [49, 50, 51, 52, 65, 67] ∧
      (encode_pc [49, 50, 51, 52, 65, 66] < encode_pc [49, 50, 51, 52, 65, 67] ↔
        [49, 50, 51, 52, 65, 66] < [49, 50, 51, 52, 65, 67]) :=
  ⟨by decide, by decide,
    encode_pc_lt_iff_lex [49, 50, 51, 52, 65, 66] [49, 50, 51, 52, 65, 67]
      (by decide) (by decide)⟩

/-! ### Build-side records and the indexer (`src/transform.rs`) -/

/-- From `src/parsing/localities.rs`: a locality record (name as UTF-8
bytes). -/
structure Locality where
  id : Nat
  name : List Nat
deriving DecidableEq, Repr

/-- From `src/parsing/public_spaces.rs`: a public-space record. -/
structure PublicSpace where
  id : List Nat
  name : List Nat
  locality_id : Nat
deriving DecidableEq, Repr

/-- From `src/parsing/addresses.rs`: an address record; the letter and
addition fields are carried but ignored by the core. -/
structure Address where
  id : List Nat
  house_number : Nat
  house_letter : Option (List Nat)
  house_number_addition : Option (List Nat)
  postal_code : List Nat
  public_space_id : List Nat
deriving DecidableEq, Repr

/-- From `src/database/mod.rs`: a run-length range record
(`u32 postal_code, u32 start, u16 length, u32 public_space_index,
u16 locality_index`). -/
structure NumberRange where
  postal_code : Nat
  start : Nat
  length : Nat
  public_space_index : Nat
  locality_index : Nat
deriving DecidableEq, Repr

/-- Byte-lexicographic `≤` on byte lists, the order Rust's `String: Ord`
uses when the indexer sorts name vectors. -/
def bytesLe : List Nat → List Nat → Bool
  | [], _ => true
  | _ :: _, [] => false
  | x :: xs, y :: ys =>
    if x < y then true
    else if y < x then false
    else bytesLe xs ys

/-- `bytesLe` as a relation, for `List.insertionSort`.  Rust's
`Vec::sort` is a stable sort; `insertionSort` is stable, so it is an
observationally exact model (elements tied under the comparator are
byte-identical strings here in any case). -/
def nameLe (a b : List Nat) : Prop :=
  bytesLe a b = true

instance : DecidableRel nameLe := fun a b => by
  unfold nameLe
  infer_instance

/-- A `HashMap` is modelled as a lookup function; `mapInsert` is
`HashMap::insert`. -/
def mapInsert {K V : Type} [DecidableEq K] (m : K → Option V) (k : K) (v : V) :
    K → Option V :=
  fun q => if q = k then some v else m q

def mapEmpty {K V : Type} : K → Option V :=
  fun _ => none

/-- `Vec::dedup`: remove consecutive repeated elements, keeping the first
of each run (`dedupAdjFrom prev l` drops leading elements equal to the
element kept just before). -/
def dedupAdjFrom {α : Type} [DecidableEq α] (prev : α) : List α → List α
  | [] => []
  | y :: ys => if y = prev then dedupAdjFrom prev ys else y :: dedupAdjFrom y ys

def dedupAdj {α : Type} [DecidableEq α] : List α → List α
  | [] => []
  | x :: xs => x :: dedupAdjFrom x xs

/-- Result of `index_localities` (`src/transform.rs`). -/
structure LocalityMap where
  locality_names : List (List Nat)
  locality_map : Nat → Option Nat

/-- From `src/transform.rs`, `index_localities`: sort and dedup the
locality names, fail when more than `u16::MAX` names remain, then build
the name-index and id-index maps.  `Except` models `Result`. -/
def index_localities (localities : List Locality) : Except String LocalityMap :=
  let locality_names := dedupAdj (List.insertionSort nameLe (localities.map Locality.name))
  if locality_names.length > 65535 then
    Except.error "too many localities for u16 index"
  else
    let name_index : List Nat → Option Nat :=
      locality_names.enum.foldl (fun m p => mapInsert m p.2 p.1) mapEmpty
    let locality_map : Nat → Option Nat :=
      localities.foldl
        (fun m locality =>
          match name_index locality.name with
          | some index => mapInsert m locality.id index
          | none => m)
        mapEmpty
    Except.ok ⟨locality_names, locality_map⟩

/-- From `src/transform.rs`, `index_public_spaces`: sort and dedup the
public-space names and map each record's id to its name index and
locality index.  The Rust code `expect`s both lookups; a missing entry
panics, modelled by `none`. -/
def index_public_spaces (public_spaces : List PublicSpace)
    (locality_map : Nat → Option Nat) :
    Option (List (List Nat) × (List Nat → Option (Nat × Nat))) :=
  let public_space_names := dedupAdj (List.insertionSort nameLe (public_spaces.map PublicSpace.name))
  let name_index : List Nat → Option Nat :=
    public_space_names.enum.foldl (fun m p => mapInsert m p.2 p.1) mapEmpty
  let public_spaces_map :=
    public_spaces.foldl
      (fun acc public_space =>
        match acc with
        | none => none
        | some m =>
          match name_index public_space.name with
          | none => none
          | some public_space_index =>
            match locality_map public_space.locality_id with
            | none => none
            | some locality_index =>
              some (mapInsert m public_space.id (public_space_index, locality_index)))
      (some mapEmpty)
  public_spaces_map.map fun m => (public_space_names, m)

/-! ### The range coalescer (`src/transform.rs`, `encode_addresses`) -/

structure EncodedEntry where
  postal_code : Nat
  house_number : Nat
  public_space_index : Nat
  locality_index : Nat
deriving DecidableEq, Repr

/-- The `sort_by` comparator of `encode_addresses`:
`(postal_code, public_space_index, locality_index, house_number)`
ascending, as a boolean `≤`. -/
def entryLe (a b : EncodedEntry) : Bool :=
  if a.postal_code < b.postal_code then true
  else if b.postal_code < a.postal_code then false
  else if a.public_space_index < b.public_space_index then true
  else if b.public_space_index < a.public_space_index then false
  else if a.locality_index < b.locality_index then true
  else if b.locality_index < a.locality_index then false
  else a.house_number ≤ b.house_number

/-- `entryLe` as a relation for the stable sort. -/
def entryLeR (a b : EncodedEntry) : Prop :=
  entryLe a b = true

instance : DecidableRel entryLeR := fun a b => by
  unfold entryLeR
  infer_instance

/-- One iteration of the coalescing loop of `encode_addresses`: the state
is the emitted ranges plus the optional current open range. -/
def coalesceStep (st : List NumberRange × Option NumberRange) (e : EncodedEntry) :
    List NumberRange × Option NumberRange :=
  match st with
  | (ranges, some range) =>
    if range.postal_code = e.postal_code ∧
        range.public_space_index = e.public_space_index ∧
        range.locality_index = e.locality_index then
      let range_end := range.start + range.length
      if e.house_number ≤ range_end then
        (ranges, some range)
      else if range.length < 65535 ∧ e.house_number = range_end + 1 then
        (ranges, some { range with length := min (range.length + 1) 65535 })
      else
        (ranges ++ [range],
          some ⟨e.postal_code, e.house_number, 0, e.public_space_index, e.locality_index⟩)
    else
      (ranges ++ [range],
        some ⟨e.postal_code, e.house_number, 0, e.public_space_index, e.locality_index⟩)
  | (ranges, none) =>
    (ranges, some ⟨e.postal_code, e.house_number, 0, e.public_space_index, e.locality_index⟩)

/-- From `src/transform.rs`, `encode_addresses`: drop addresses with an
unresolvable public-space id, encode entries, sort by the canonical key,
and fold the coalescing loop, emitting the final open range. -/
def encode_addresses (addresses : List Address)
    (public_spaces_map : List Nat → Option (Nat × Nat)) : List NumberRange :=
  let entries := addresses.filterMap fun address =>
    match public_spaces_map address.public_space_id with
    | none => none
    | some (public_space_index, locality_index) =>
      some ⟨encode_pc address.postal_code, address.house_number,
        public_space_index, locality_index⟩
  let sorted := List.insertionSort entryLeR entries
  let st := sorted.foldl coalesceStep ([], none)
  match st.2 with
  | some r => st.1 ++ [r]
  | none => st.1

/-! ### Coalescer length bound (C7) -/

/-- The entry list `encode_addresses` builds before sorting. -/
def entriesOf (addresses : List Address) (m : List Nat → Option (Nat × Nat)) :
    List EncodedEntry :=
  addresses.filterMap fun address =>
    match m address.public_space_id with
    | none => none
    | some (public_space_index, locality_index) =>
      some ⟨encode_pc address.postal_code, address.house_number,
        public_space_index, locality_index⟩

/-- The coalescing fold with the final open range flushed. -/
def coalesce (es : List EncodedEntry) : List NumberRange :=
  let st := es.foldl coalesceStep ([], none)
  st.1 ++ st.2.toList

theorem flush_eq (st : List NumberRange × Option NumberRange) :
    (match st.2 with
      | some r => st.1 ++ [r]
      | none => st.1) = st.1 ++ st.2.toList := by
  rcases st with ⟨out, _ | last⟩ <;> simp

theorem encode_addresses_eq (addresses : List Address)
    (m : List Nat → Option (Nat × Nat)) :
    encode_addresses addresses m =
      coalesce (List.insertionSort entryLeR (entriesOf addresses m)) := by
  unfold encode_addresses coalesce entriesOf
  exact flush_eq _

/-- Every length stored in the coalescer state is at most `u16::MAX`. -/
def LensOk (st : List NumberRange × Option NumberRange) : Prop :=
  (∀ r ∈ st.1, r.length ≤ 65535) ∧ ∀ r ∈ st.2.toList, r.length ≤ 65535

theorem coalesceStep_lens (st : List NumberRange × Option NumberRange)
    (e : EncodedEntry) (h : LensOk st) : LensOk (coalesceStep st e) := by
  obtain ⟨h1, h2⟩ := h
  rcases st with ⟨ranges, cur⟩
  rcases cur with _ | r
  · refine ⟨h1, ?_⟩
    intro x hx
    simp only [coalesceStep, Option.toList_some, List.mem_singleton] at hx
    subst hx
    simp
  · have hr : r.length ≤ 65535 := h2 r (by simp)
    simp only [coalesceStep]
    split_ifs with hkey hcov hext
    · exact ⟨h1, h2⟩
    · refine ⟨h1, ?_⟩
      intro x hx
      simp only [Option.toList_some, List.mem_singleton] at hx
      subst hx
      simp only []
      exact Nat.min_le_right _ _
    · refine ⟨?_, ?_⟩
      · intro x hx
        rcases List.mem_append.mp hx with hx | hx
        · exact h1 x hx
        · rw [List.mem_singleton] at hx
          subst hx
          exact hr
      · intro x hx
        simp only [Option.toList_some, List.mem_singleton] at hx
        subst hx
        simp
    · refine ⟨?_, ?_⟩
      · intro x hx
        rcases List.mem_append.mp hx with hx | hx
        · exact h1 x hx
        · rw [List.mem_singleton] at hx
          subst hx
          exact hr
      · intro x hx
        simp only [Option.toList_some, List.mem_singleton] at hx
        subst hx
        simp

theorem foldl_coalesce_lens (es : List EncodedEntry)
    (st : List NumberRange × Option NumberRange) (h : LensOk st) :
    LensOk (es.foldl coalesceStep st) := by
  induction es generalizing st with
  | nil => simpa using h
  | cons e es ih => exact ih _ (coalesceStep_lens _ e h)

/-- C7 (amended): every range emitted by `encode_addresses` has
`length ≤ 65535 = u16::MAX`; a range is extended only while its length is
strictly below `u16::MAX`. -/
theorem encode_addresses_length_le (addresses : List Address)
    (public_spaces_map : List Nat → Option (Nat × Nat)) (r : NumberRange)
    (hr : r ∈ encode_addresses addresses public_spaces_map) :
    r.length ≤ 65535 := by
  rw [encode_addresses_eq] at hr
  unfold coalesce at hr
  have key := foldl_coalesce_lens
    (List.insertionSort entryLeR (entriesOf addresses public_spaces_map))
    ([], none) ⟨by simp, by simp⟩
  rcases List.mem_append.mp hr with hx | hx
  · exact key.1 r hx
  · exact key.2 r hx

/-- Witness for C7 at a single concrete address. -/
theorem encode_addresses_length_le_witness :
    (⟨encode_pc [49, 50, 51, 52, 65, 66], 7, 0, 0, 0⟩ : NumberRange) ∈
        encode_addresses [⟨[], 7, none, none, [49, 50, 51, 52, 65, 66], []⟩]
          (fun _ => some (0, 0)) ∧
      (⟨encode_pc [49, 50, 51, 52, 65, 66], 7, 0, 0, 0⟩ : NumberRange).length ≤ 65535 :=
  ⟨by decide,
    encode_addresses_length_le [⟨[], 7, none, none, [49, 50, 51, 52, 65, 66], []⟩]
      (fun _ => some (0, 0)) ⟨encode_pc [49, 50, 51, 52, 65, 66], 7, 0, 0, 0⟩ (by decide)⟩

/-- A run of `n` consecutive same-key entries coalesces, from the empty
state, into a single open range of length `n`. -/
theorem run_fold (pc ps loc s : Nat) : ∀ n, n ≤ 65535 →
    ((List.range (n + 1)).map
        (fun i => (⟨pc, i + s, ps, loc⟩ : EncodedEntry))).foldl coalesceStep ([], none)
      = ([], some ⟨pc, s, n, ps, loc⟩) := by
  intro n
  induction n with
  | zero =>
    intro _
    rw [show List.range 1 = [0] from rfl]
    simp [coalesceStep]
  | succ n ih =>
    intro h
    rw [List.range_succ, List.map_append, List.foldl_append]
    rw [ih (by omega)]
    simp only [List.map_cons, List.map_nil, List.foldl_cons, List.foldl_nil]
    have hstep : coalesceStep ([], some ⟨pc, s, n, ps, loc⟩) ⟨pc, n + 1 + s, ps, loc⟩
        = ([], some ⟨pc, s, n + 1, ps, loc⟩) := by
      simp only [coalesceStep]
      rw [if_pos (by simp)]
      rw [if_neg (by show ¬(n + 1 + s ≤ s + n); omega)]
      rw [if_pos (by show n < 65535 ∧ n + 1 + s = s + n + 1; exact ⟨by omega, by omega⟩)]
      show ([], some (⟨pc, s, min (n + 1) 65535, ps, loc⟩ : NumberRange))
        = ([], some ⟨pc, s, n + 1, ps, loc⟩)
      rw [min_eq_left (by omega : n + 1 ≤ 65535)]
    exact hstep

def runAddrs : List Address :=
  (List.range 65536).map fun i =>
    ⟨[], i + 1, none, none, [49, 50, 51, 52, 65, 66], []⟩

def runMap : List Nat → Option (Nat × Nat) :=
  fun _ => some (0, 0)

theorem entriesOf_runAux (l : List Nat) :
    entriesOf
        (l.map fun i => (⟨[], i + 1, none, none, [49, 50, 51, 52, 65, 66], []⟩ : Address))
        runMap =
      l.map (fun i => (⟨encode_pc [49, 50, 51, 52, 65, 66], i + 1, 0, 0⟩ : EncodedEntry)) := by
  induction l with
  | nil => rfl
  | cons x l ih =>
    simp only [List.map_cons, entriesOf, List.filterMap_cons, runMap] at ih ⊢
    rw [ih]

theorem entriesOf_runAddrs :
    entriesOf runAddrs runMap =
      (List.range 65536).map
        (fun i => (⟨encode_pc [49, 50, 51, 52, 65, 66], i + 1, 0, 0⟩ : EncodedEntry)) := by
  unfold runAddrs
  exact entriesOf_runAux (List.range 65536)

theorem run_sorted (pc : Nat) (n : Nat) :
    List.Sorted entryLeR
      ((List.range n).map (fun i => (⟨pc, i + 1, 0, 0⟩ : EncodedEntry))) := by
  refine List.Pairwise.map _ ?_ (List.pairwise_lt_range n)
  intro i j hij
  simp [entryLeR, entryLe]
  omega

theorem encode_addresses_run :
    encode_addresses runAddrs runMap =
      [⟨encode_pc [49, 50, 51, 52, 65, 66], 1, 65535, 0, 0⟩] := by
  rw [encode_addresses_eq, entriesOf_runAddrs]
  rw [List.Sorted.insertionSort_eq (run_sorted _ 65536)]
  unfold coalesce
  rw [show (65536 : Nat) = 65535 + 1 from rfl]
  rw [run_fold _ 0 0 1 65535 (by omega)]
  simp

/-- C7 counterexample: 65536 consecutive house numbers for one street
coalesce into a single range whose length is 65535, exceeding 65534. -/
theorem encode_addresses_length_le_65534_false :
    ¬ (∀ r ∈ encode_addresses runAddrs runMap, r.length ≤ 65534) := by
  intro hall
  have h := hall ⟨encode_pc [49, 50, 51, 52, 65, 66], 1, 65535, 0, 0⟩
    (by rw [encode_addresses_run]; simp)
  simp at h


/-! ### Order properties of the byte-lexicographic comparator -/

theorem bytesLe_refl : ∀ a : List Nat, bytesLe a a = true := by
  intro a
  induction a with
  | nil => rfl
  | cons x xs ih => simp [bytesLe, ih]

theorem bytesLe_total : ∀ a b : List Nat, bytesLe a b = true ∨ bytesLe b a = true := by
  intro a
  induction a with
  | nil => intro b; exact Or.inl rfl
  | cons x xs ih =>
    intro b
    rcases b with _ | ⟨y, ys⟩
    · exact Or.inr rfl
    by_cases h1 : x < y
    · left
      simp [bytesLe, h1]
    by_cases h2 : y < x
    · right
      simp [bytesLe, h2]
    rcases ih ys with h | h
    · left
      simp [bytesLe, h1, h2, h]
    · right
      simp [bytesLe, h1, h2, h]

theorem bytesLe_trans :
    ∀ a b c : List Nat, bytesLe a b = true → bytesLe b c = true → bytesLe a c = true := by
  intro a
  induction a with
  | nil => intro b c _ _; rfl
  | cons x xs ih =>
    intro b c hab hbc
    rcases b with _ | ⟨y, ys⟩
    · simp [bytesLe] at hab
    rcases c with _ | ⟨z, zs⟩
    · simp [bytesLe] at hbc
    by_cases h1 : x < y
    · by_cases h2 : y < z
      · simp [bytesLe, show x < z by omega]
      · by_cases h3 : z < y
        · simp [bytesLe, h2, h3] at hbc
        · simp [bytesLe, show x < z by omega]
    · by_cases h1' : y < x
      · simp [bytesLe, h1, h1'] at hab
      · by_cases h2 : y < z
        · simp [bytesLe, show x < z by omega]
        · by_cases h3 : z < y
          · simp [bytesLe, h2, h3] at hbc
          · have hxz1 : ¬ x < z := by omega
            have hxz2 : ¬ z < x := by omega
            simp only [bytesLe, if_neg h1, if_neg h1'] at hab
            simp only [bytesLe, if_neg h2, if_neg h3] at hbc
            simp only [bytesLe, if_neg hxz1, if_neg hxz2]
            exact ih ys zs hab hbc

theorem bytesLe_antisymm :
    ∀ a b : List Nat, bytesLe a b = true → bytesLe b a = true → a = b := by
  intro a
  induction a with
  | nil =>
    intro b _ hba
    rcases b with _ | ⟨y, ys⟩
    · rfl
    · simp [bytesLe] at hba
  | cons x xs ih =>
    intro b hab hba
    rcases b with _ | ⟨y, ys⟩
    · simp [bytesLe] at hab
    by_cases h1 : x < y
    · simp [bytesLe, h1, show ¬ y < x by omega] at hba
    by_cases h2 : y < x
    · simp [bytesLe, h1, h2] at hab
    have hxy : x = y := by omega
    subst hxy
    simp only [bytesLe, if_neg h1, if_neg h2] at hab hba
    rw [ih ys hab hba]

instance : IsTotal (List Nat) nameLe :=
  ⟨fun a b => bytesLe_total a b⟩

instance : IsTrans (List Nat) nameLe :=
  ⟨fun a b c => bytesLe_trans a b c⟩

instance : IsAntisymm (List Nat) nameLe :=
  ⟨fun a b => bytesLe_antisymm a b⟩

instance : IsRefl (List Nat) nameLe :=
  ⟨fun a => bytesLe_refl a⟩

/-! ### `Vec::dedup` on sorted lists -/

theorem mem_dedupAdjFrom {α : Type} [DecidableEq α] :
    ∀ (l : List α) (prev x : α), x ∈ dedupAdjFrom prev l → x ∈ l := by
  intro l
  induction l with
  | nil => intro prev x h; simp [dedupAdjFrom] at h
  | cons y ys ih =>
    intro prev x h
    simp only [dedupAdjFrom] at h
    split_ifs at h with hy
    · exact List.mem_cons_of_mem _ (ih prev x h)
    · rcases List.mem_cons.mp h with rfl | h
      · exact List.mem_cons_self _ _
      · exact List.mem_cons_of_mem _ (ih y x h)

theorem mem_dedupAdjFrom_complete {α : Type} [DecidableEq α] :
    ∀ (l : List α) (prev x : α), x ∈ l → x = prev ∨ x ∈ dedupAdjFrom prev l := by
  intro l
  induction l with
  | nil => intro prev x h; simp at h
  | cons y ys ih =>
    intro prev x h
    simp only [dedupAdjFrom]
    rcases List.mem_cons.mp h with rfl | h
    · split_ifs with hy
      · exact Or.inl hy
      · exact Or.inr (List.mem_cons_self _ _)
    · split_ifs with hy
      · exact ih prev x h
      · rcases ih y x h with rfl | h2
        · exact Or.inr (List.mem_cons_self _ _)
        · exact Or.inr (List.mem_cons_of_mem _ h2)

theorem mem_dedupAdj {α : Type} [DecidableEq α] (l : List α) (x : α) :
    x ∈ dedupAdj l ↔ x ∈ l := by
  rcases l with _ | ⟨a, xs⟩
  · simp [dedupAdj]
  constructor
  · intro h
    rcases List.mem_cons.mp h with rfl | h
    · exact List.mem_cons_self _ _
    · exact List.mem_cons_of_mem _ (mem_dedupAdjFrom xs a x h)
  · intro h
    rcases List.mem_cons.mp h with rfl | h
    · exact List.mem_cons_self _ _
    · rcases mem_dedupAdjFrom_complete xs a x h with rfl | h2
      · exact List.mem_cons_self _ _
      · exact List.mem_cons_of_mem _ h2

/-- Strict byte-lexicographic order. -/
def nameLt (a b : List Nat) : Prop :=
  nameLe a b ∧ a ≠ b

theorem dedupAdjFrom_pairwise :
    ∀ (l : List (List Nat)) (prev : List Nat), List.Pairwise nameLe (prev :: l) →
      List.Pairwise nameLt (prev :: dedupAdjFrom prev l) := by
  intro l
  induction l with
  | nil => intro prev _; simp [dedupAdjFrom]
  | cons y ys ih =>
    intro prev H
    have hpy : nameLe prev y := (List.pairwise_cons.mp H).1 y (List.mem_cons_self _ _)
    have hprevall : ∀ z ∈ y :: ys, nameLe prev z := (List.pairwise_cons.mp H).1
    have Hyys : List.Pairwise nameLe (y :: ys) := (List.pairwise_cons.mp H).2
    simp only [dedupAdjFrom]
    split_ifs with hy
    · subst hy
      exact ih y (List.pairwise_cons.mpr
        ⟨fun z hz => hprevall z (List.mem_cons_of_mem _ hz), (List.pairwise_cons.mp Hyys).2⟩)
    · have hsub := ih y Hyys
      refine List.pairwise_cons.mpr ⟨?_, hsub⟩
      intro z hz
      rcases List.mem_cons.mp hz with rfl | hz
      · exact ⟨hpy, fun hcontra => hy hcontra.symm⟩
      · have hzys : z ∈ ys := mem_dedupAdjFrom ys y z hz
        refine ⟨hprevall z (List.mem_cons_of_mem _ hzys), ?_⟩
        intro hcontra
        have hyz : nameLe y z := (List.pairwise_cons.mp Hyys).1 z hzys
        rw [← hcontra] at hyz
        exact hy (bytesLe_antisymm y prev hyz hpy)

theorem dedupAdj_pairwise (l : List (List Nat)) (h : List.Pairwise nameLe l) :
    List.Pairwise nameLt (dedupAdj l) := by
  rcases l with _ | ⟨a, xs⟩
  · simp [dedupAdj]
  exact dedupAdjFrom_pairwise xs a h

/-- The length of the sorted-deduplicated name list is the number of
distinct names. -/
theorem dedup_sort_length (l : List (List Nat)) :
    (dedupAdj (List.insertionSort nameLe l)).length = l.toFinset.card := by
  have hsorted : List.Pairwise nameLe (List.insertionSort nameLe l) :=
    List.sorted_insertionSort nameLe l
  have hpw := dedupAdj_pairwise _ hsorted
  have hnodup : (dedupAdj (List.insertionSort nameLe l)).Nodup :=
    hpw.imp fun h => h.2
  have hfs : (dedupAdj (List.insertionSort nameLe l)).toFinset = l.toFinset := by
    ext x
    simp only [List.mem_toFinset]
    rw [mem_dedupAdj]
    exact (List.perm_insertionSort nameLe l).mem_iff
  rw [← hfs]
  exact (List.toFinset_card_of_nodup hnodup).symm

/-! ### C8: `index_localities` error threshold -/

theorem index_localities_isOk_iff (localities : List Locality) :
    (index_localities localities).isOk = true ↔
      (dedupAdj (List.insertionSort nameLe (localities.map Locality.name))).length ≤ 65535 := by
  unfold index_localities
  by_cases hgt :
      (dedupAdj (List.insertionSort nameLe (localities.map Locality.name))).length > 65535
  · rw [if_pos hgt]
    simp [Except.isOk, Except.toBool]
    omega
  · rw [if_neg hgt]
    simp [Except.isOk, Except.toBool]
    omega

/-- C8 (amended): `index_localities` fails exactly when the number of
distinct locality names exceeds 65 535 = `u16::MAX`; an input with at
most 65 535 distinct names succeeds, one with 65 536 fails. -/
theorem index_localities_ok_iff_card (localities : List Locality) :
    (index_localities localities).isOk = true ↔
      (localities.map Locality.name).toFinset.card ≤ 65535 := by
  rw [index_localities_isOk_iff, dedup_sort_length]

/-- 65 536 localities with pairwise distinct two-byte names. -/
def manyLocs : List Locality :=
  (List.range 65536).map fun i => ⟨0, [i / 256, i % 256]⟩

theorem manyLocs_names_nodup : (manyLocs.map Locality.name).Nodup := by
  unfold manyLocs
  rw [List.map_map]
  refine List.Nodup.map_on ?_ (List.nodup_range 65536)
  intro i hi j hj hij
  simp only [List.mem_range] at hi hj
  simp only [Function.comp] at hij
  have h1 : i / 256 = j / 256 := by
    have h := congrArg (fun l => l.headI) hij
    simpa using h
  have h2 : i % 256 = j % 256 := by
    have h := congrArg (fun l => l.getD 1 0) hij
    simpa using h
  omega

theorem manyLocs_card : (manyLocs.map Locality.name).toFinset.card = 65536 := by
  rw [List.toFinset_card_of_nodup manyLocs_names_nodup]
  unfold manyLocs
  simp

/-- C8 counterexample: an input with exactly 65 536 distinct locality
names is rejected by `index_localities`, refuting the claimed threshold
of 65 536. -/
theorem index_localities_65536_fails :
    (manyLocs.map Locality.name).toFinset.card = 65536 ∧
      (index_localities manyLocs).isOk = false := by
  refine ⟨manyLocs_card, ?_⟩
  have hlen : (dedupAdj (List.insertionSort nameLe (manyLocs.map Locality.name))).length
      = 65536 := by
    rw [dedup_sort_length, manyLocs_card]
  unfold index_localities
  rw [if_pos (by omega)]
  rfl

/-! ### C9: `index_public_spaces` panics on a missing locality -/

theorem foldl_mapInsert_isSome {α : Type} [DecidableEq α] :
    ∀ (pairs : List (Nat × α)) (m0 : α → Option Nat) (k : α),
      (k ∈ pairs.map Prod.snd ∨ (m0 k).isSome = true) →
      ((pairs.foldl (fun m p => mapInsert m p.2 p.1) m0) k).isSome = true := by
  intro pairs
  induction pairs with
  | nil =>
    intro m0 k h
    rcases h with h | h
    · simp at h
    · simpa using h
  | cons p ps ih =>
    intro m0 k h
    simp only [List.foldl_cons]
    apply ih
    by_cases hk : k = p.2
    · right
      simp [mapInsert, hk]
    · rcases h with h | h
      · rw [List.map_cons] at h
        rcases List.mem_cons.mp h with h2 | h2
        · exact absurd h2 hk
        · left
          exact h2
      · right
        simpa [mapInsert, hk] using h

/-- Lookup in a name index built by enumerating a name list succeeds for
every member name. -/
theorem name_index_isSome (names : List (List Nat)) (x : List Nat) (hx : x ∈ names) :
    ((names.enum.foldl (fun m p => mapInsert m p.2 p.1) mapEmpty) x).isSome = true := by
  apply foldl_mapInsert_isSome
  left
  rw [List.enum_map_snd]
  exact hx

theorem ps_fold_isSome_iff (ni : List Nat → Option Nat) (lm : Nat → Option Nat) :
    ∀ (l : List PublicSpace) (acc : Option (List Nat → Option (Nat × Nat))),
      (∀ ps ∈ l, (ni ps.name).isSome = true) →
      ((l.foldl
          (fun acc public_space =>
            match acc with
            | none => none
            | some m =>
              match ni public_space.name with
              | none => none
              | some public_space_index =>
                match lm public_space.locality_id with
                | none => none
                | some locality_index =>
                  some (mapInsert m public_space.id (public_space_index, locality_index)))
          acc).isSome = true ↔
        (acc.isSome = true ∧ ∀ ps ∈ l, (lm ps.locality_id).isSome = true)) := by
  intro l
  induction l with
  | nil =>
    intro acc _
    simp
  | cons ps l ih =>
    intro acc hni
    have hhead : (ni ps.name).isSome = true := hni ps (List.mem_cons_self _ _)
    have htail : ∀ q ∈ l, (ni q.name).isSome = true :=
      fun q hq => hni q (List.mem_cons_of_mem _ hq)
    simp only [List.foldl_cons]
    rcases hacc : acc with _ | m
    · rw [ih _ htail]
      simp
    · rcases hnm : ni ps.name with _ | psi
      · rw [hnm] at hhead
        simp at hhead
      · rcases hlm : lm ps.locality_id with _ | li
        · rw [ih _ htail]
          simp [hlm]
        · rw [ih _ htail]
          simp [hlm]

/-- C9 (amended): `index_public_spaces` returns normally exactly when
every public space's locality id has an entry in the locality map (the
name-index lookup itself never fails); a missing locality id makes the
Rust code panic, modelled by `none`. -/
theorem index_public_spaces_isSome_iff (public_spaces : List PublicSpace)
    (locality_map : Nat → Option Nat) :
    (index_public_spaces public_spaces locality_map).isSome = true ↔
      ∀ ps ∈ public_spaces, (locality_map ps.locality_id).isSome = true := by
  have hni : ∀ ps ∈ public_spaces,
      (((dedupAdj (List.insertionSort nameLe (public_spaces.map PublicSpace.name))).enum.foldl
          (fun m p => mapInsert m p.2 p.1) mapEmpty) ps.name).isSome = true := by
    intro ps hps
    apply name_index_isSome
    rw [mem_dedupAdj]
    rw [(List.perm_insertionSort nameLe _).mem_iff]
    exact List.mem_map_of_mem PublicSpace.name hps
  have h := ps_fold_isSome_iff
    ((dedupAdj (List.insertionSort nameLe (public_spaces.map PublicSpace.name))).enum.foldl
        (fun m p => mapInsert m p.2 p.1) mapEmpty)
    locality_map public_spaces (some mapEmpty) hni
  unfold index_public_spaces
  dsimp only
  rw [Option.isSome_map']
  exact h.trans (by simp)

/-- C9 counterexample: a single public space whose locality id is not in
the map makes `index_public_spaces` panic (modelled by `none`), refuting
the claim that it returns normally for every input. -/
theorem index_public_spaces_total_false :
    ¬ ∀ (pss : List PublicSpace) (lm : Nat → Option Nat),
        (index_public_spaces pss lm).isSome = true := by
  intro h
  have h1 := h [⟨[], [], 0⟩] (fun _ => none)
  have h2 : index_public_spaces [⟨[], [], 0⟩] (fun _ => none) = none := rfl
  rw [h2] at h1
  simp at h1


/-! ### Keys and orders for the coalescer correctness argument -/

/-- The `(postal_code, public_space_index, locality_index)` group key of a
range. -/
def gKey (r : NumberRange) : Nat × Nat × Nat :=
  (r.postal_code, r.public_space_index, r.locality_index)

/-- The group key of an encoded entry. -/
def eKey (e : EncodedEntry) : Nat × Nat × Nat :=
  (e.postal_code, e.public_space_index, e.locality_index)

/-- Strict lexicographic order on group keys. -/
def keyLt (a b : Nat × Nat × Nat) : Prop :=
  a.1 < b.1 ∨ (a.1 = b.1 ∧ (a.2.1 < b.2.1 ∨ (a.2.1 = b.2.1 ∧ a.2.2 < b.2.2)))

theorem keyLt_irrefl (k : Nat × Nat × Nat) : ¬ keyLt k k := by
  simp [keyLt]

theorem keyLt_trans {a b c : Nat × Nat × Nat} (h1 : keyLt a b) (h2 : keyLt b c) :
    keyLt a c := by
  rcases a with ⟨a1, a2, a3⟩
  rcases b with ⟨b1, b2, b3⟩
  rcases c with ⟨c1, c2, c3⟩
  simp only [keyLt] at h1 h2 ⊢
  omega

theorem entryLe_total (a b : EncodedEntry) : entryLe a b = true ∨ entryLe b a = true := by
  unfold entryLe
  split_ifs <;> simp_all <;> omega

/-- The sort comparator in terms of keys: smaller key, or equal key and
house number at most. -/
theorem entryLeR_iff (a b : EncodedEntry) :
    entryLeR a b ↔
      (keyLt (eKey a) (eKey b) ∨ (eKey a = eKey b ∧ a.house_number ≤ b.house_number)) := by
  unfold entryLeR entryLe keyLt eKey
  simp only [Prod.mk.injEq]
  split_ifs <;> simp_all <;> omega

theorem entryLe_trans (a b c : EncodedEntry) (h1 : entryLe a b = true)
    (h2 : entryLe b c = true) : entryLe a c = true := by
  have h1' := (entryLeR_iff a b).mp h1
  have h2' := (entryLeR_iff b c).mp h2
  apply (entryLeR_iff a c).mpr
  rcases h1' with h1' | ⟨he1, hh1⟩
  · rcases h2' with h2' | ⟨he2, hh2⟩
    · exact Or.inl (keyLt_trans h1' h2')
    · exact Or.inl (he2 ▸ h1')
  · rcases h2' with h2' | ⟨he2, hh2⟩
    · exact Or.inl (he1 ▸ h2')
    · exact Or.inr ⟨he1.trans he2, le_trans hh1 hh2⟩

instance : IsTotal EncodedEntry entryLeR :=
  ⟨fun a b => entryLe_total a b⟩

instance : IsTrans EncodedEntry entryLeR :=
  ⟨fun a b c => entryLe_trans a b c⟩

/-- Range `r1` lies strictly before `r2` in the canonical run order:
either a smaller group key, or the same key with a gap before the next
start. -/
def rBefore (r1 r2 : NumberRange) : Prop :=
  keyLt (gKey r1) (gKey r2) ∨ (gKey r1 = gKey r2 ∧ r1.start + r1.length < r2.start)

theorem rBefore_trans {r1 r2 r3 : NumberRange} (h1 : rBefore r1 r2)
    (h2 : rBefore r2 r3) : rBefore r1 r3 := by
  rcases h1 with h1 | ⟨he1, h1⟩
  · rcases h2 with h2 | ⟨he2, h2⟩
    · exact Or.inl (keyLt_trans h1 h2)
    · exact Or.inl (he2 ▸ h1)
  · rcases h2 with h2 | ⟨he2, h2⟩
    · exact Or.inl (he1 ▸ h2)
    · exact Or.inr ⟨he1.trans he2, by omega⟩

/-- `r` covers house number `hn` for group key `k`. -/
def covers (r : NumberRange) (k : Nat × Nat × Nat) (hn : Nat) : Prop :=
  gKey r = k ∧ r.start ≤ hn ∧ hn ≤ r.start + r.length

/-- Some range in the list covers `(k, hn)`. -/
def coveredBy (rs : List NumberRange) (k : Nat × Nat × Nat) (hn : Nat) : Prop :=
  ∃ r ∈ rs, covers r k hn

/-- Coalescer state invariant: the emitted ranges followed by the open
range form a strictly increasing chain, and an absent open range forces
an empty output. -/
def ChainInv (st : List NumberRange × Option NumberRange) : Prop :=
  List.Pairwise rBefore (st.1 ++ st.2.toList) ∧ (st.2 = none → st.1 = [])

/-- Every entry still to be processed lies at or after the open range's
position. -/
def entryAfter (cur : Option NumberRange) (e : EncodedEntry) : Prop :=
  match cur with
  | none => True
  | some c => keyLt (gKey c) (eKey e) ∨ (gKey c = eKey e ∧ c.start ≤ e.house_number)

theorem entryAfter_mono {c : NumberRange} {e e' : EncodedEntry}
    (h : entryAfter (some c) e) (hle : entryLeR e e') : entryAfter (some c) e' := by
  rw [entryLeR_iff] at hle
  rcases h with h | ⟨he, hs⟩
  · rcases hle with hle | ⟨hke, _⟩
    · exact Or.inl (keyLt_trans h hle)
    · exact Or.inl (hke ▸ h)
  · rcases hle with hle | ⟨hke, hh⟩
    · exact Or.inl (he ▸ hle)
    · exact Or.inr ⟨he.trans hke, by omega⟩

/-- One coalescer step preserves the chain invariant, preserves coverage,
covers the processed entry, and keeps later entries after the new open
range. -/
theorem coalesceStep_inv (out : List NumberRange) (cur : Option NumberRange)
    (e : EncodedEntry) (hchain : ChainInv (out, cur)) (he : entryAfter cur e) :
    ChainInv (coalesceStep (out, cur) e)
    ∧ (∀ k hn, coveredBy (out ++ cur.toList) k hn →
        coveredBy ((coalesceStep (out, cur) e).1 ++ (coalesceStep (out, cur) e).2.toList) k hn)
    ∧ coveredBy ((coalesceStep (out, cur) e).1 ++ (coalesceStep (out, cur) e).2.toList)
        (eKey e) e.house_number
    ∧ (∀ e', entryLeR e e' → entryAfter (coalesceStep (out, cur) e).2 e') := by
  obtain ⟨hpw, hnone⟩ := hchain
  rcases cur with _ | c
  · have hout : out = [] := hnone rfl
    subst hout
    simp only [coalesceStep]
    refine ⟨⟨by simp [List.pairwise_singleton], by simp⟩, ?_, ?_, ?_⟩
    · rintro k hn ⟨r, hr, _⟩
      simp at hr
    · refine ⟨⟨e.postal_code, e.house_number, 0, e.public_space_index, e.locality_index⟩,
        by simp, rfl, le_refl _, by simp⟩
    · intro e' hle
      rw [entryLeR_iff] at hle
      exact hle
  · simp only [coalesceStep]
    split_ifs with hk hcov hext
    · -- same key, house number already covered: state unchanged
      have hkeyEq : gKey c = eKey e := by
        simp only [gKey, eKey, Prod.mk.injEq]
        exact ⟨hk.1, hk.2.1, hk.2.2⟩
      have hstart : c.start ≤ e.house_number := by
        rcases he with hlt | ⟨_, hs⟩
        · rw [hkeyEq] at hlt
          exact absurd hlt (keyLt_irrefl _)
        · exact hs
      refine ⟨⟨hpw, by simp⟩, ?_, ?_, ?_⟩
      · intro k hn h
        exact h
      · exact ⟨c, by simp, hkeyEq, hstart, hcov⟩
      · intro e' hle
        exact entryAfter_mono he hle
    · -- same key, next consecutive number: extend the open range
      have hkeyEq : gKey c = eKey e := by
        simp only [gKey, eKey, Prod.mk.injEq]
        exact ⟨hk.1, hk.2.1, hk.2.2⟩
      obtain ⟨hlen, hnext⟩ := hext
      have hmin : min (c.length + 1) 65535 = c.length + 1 := min_eq_left (by omega)
      simp only [hmin]
      set c' : NumberRange :=
        ⟨c.postal_code, c.start, c.length + 1,
          c.public_space_index, c.locality_index⟩ with hc'
      have hcs : c'.start = c.start := rfl
      have hcl : c'.length = c.length + 1 := rfl
      have hg' : gKey c' = gKey c := rfl
      have hbefore' : ∀ r, rBefore r c → rBefore r c' := by
        intro r hr
        rcases hr with hr | ⟨hre, hrs⟩
        · exact Or.inl hr
        · exact Or.inr ⟨hre, hrs⟩
      refine ⟨⟨?_, by simp⟩, ?_, ?_, ?_⟩
      · simp only [Option.toList_some]
        rw [List.pairwise_append]
        rw [List.pairwise_append] at hpw
        simp only [Option.toList_some] at hpw
        refine ⟨hpw.1, by simp, ?_⟩
        intro r hr x hx
        rw [List.mem_singleton] at hx
        subst hx
        exact hbefore' r (hpw.2.2 r hr c (by simp))
      · rintro k hn ⟨r, hr, hcov2⟩
        simp only [Option.toList_some] at hr
        rcases List.mem_append.mp hr with hr | hr
        · exact ⟨r, by simp [List.mem_append, hr], hcov2⟩
        · rw [List.mem_singleton] at hr
          subst hr
          refine ⟨c', by simp, ?_⟩
          obtain ⟨hg, hs, hend⟩ := hcov2
          exact ⟨hg, by omega, by omega⟩
      · refine ⟨c', by simp, ?_⟩
        exact ⟨hkeyEq, by omega, by omega⟩
      · intro e' hle
        have h2 := entryAfter_mono he hle
        rcases h2 with h2 | ⟨h2e, h2s⟩
        · exact Or.inl h2
        · exact Or.inr ⟨h2e, h2s⟩
    · -- same key but a gap (or length saturated): emit and open a new range
      have hkeyEq : gKey c = eKey e := by
        simp only [gKey, eKey, Prod.mk.injEq]
        exact ⟨hk.1, hk.2.1, hk.2.2⟩
      set n : NumberRange :=
        ⟨e.postal_code, e.house_number, 0, e.public_space_index, e.locality_index⟩ with hn'
      have hgn : gKey n = eKey e := rfl
      have hgap : c.start + c.length < e.house_number := by omega
      have hcn : rBefore c n := Or.inr ⟨hkeyEq.trans hgn.symm, hgap⟩
      have hcross : ∀ r ∈ out ++ [c], rBefore r n := by
        intro r hr
        rcases List.mem_append.mp hr with hr | hr
        · have hrc : rBefore r c := by
            rw [List.pairwise_append] at hpw
            simp only [Option.toList_some] at hpw
            exact hpw.2.2 r hr c (by simp)
          exact rBefore_trans hrc hcn
        · rw [List.mem_singleton] at hr
          subst hr
          exact hcn
      refine ⟨⟨?_, by simp⟩, ?_, ?_, ?_⟩
      · simp only [Option.toList_some]
        rw [List.pairwise_append]
        refine ⟨by simpa using hpw, by simp, ?_⟩
        intro r hr x hx
        rw [List.mem_singleton] at hx
        subst hx
        exact hcross r hr
      · rintro k hn ⟨r, hr, hcov2⟩
        simp only [Option.toList_some] at hr
        exact ⟨r, by simp only [Option.toList_some]; exact List.mem_append.mpr (Or.inl hr), hcov2⟩
      · exact ⟨n, by simp, hgn, le_refl _, by simp [hn']⟩
      · intro e' hle
        rw [entryLeR_iff] at hle
        exact hle
    · -- different key: emit and open a new range
      have hklt : keyLt (gKey c) (eKey e) := by
        rcases he with hlt | ⟨heq, _⟩
        · exact hlt
        · exfalso
          apply hk
          simp only [gKey, eKey, Prod.mk.injEq] at heq
          exact heq
      set n : NumberRange :=
        ⟨e.postal_code, e.house_number, 0, e.public_space_index, e.locality_index⟩ with hn'
      have hgn : gKey n = eKey e := rfl
      have hcn : rBefore c n := Or.inl (by rw [hgn]; exact hklt)
      have hcross : ∀ r ∈ out ++ [c], rBefore r n := by
        intro r hr
        rcases List.mem_append.mp hr with hr | hr
        · have hrc : rBefore r c := by
            rw [List.pairwise_append] at hpw
            simp only [Option.toList_some] at hpw
            exact hpw.2.2 r hr c (by simp)
          exact rBefore_trans hrc hcn
        · rw [List.mem_singleton] at hr
          subst hr
          exact hcn
      refine ⟨⟨?_, by simp⟩, ?_, ?_, ?_⟩
      · simp only [Option.toList_some]
        rw [List.pairwise_append]
        refine ⟨by simpa using hpw, by simp, ?_⟩
        intro r hr x hx
        rw [List.mem_singleton] at hx
        subst hx
        exact hcross r hr
      · rintro k hn ⟨r, hr, hcov2⟩
        simp only [Option.toList_some] at hr
        exact ⟨r, by simp only [Option.toList_some]; exact List.mem_append.mpr (Or.inl hr), hcov2⟩
      · exact ⟨n, by simp, hgn, le_refl _, by simp [hn']⟩
      · intro e' hle
        rw [entryLeR_iff] at hle
        exact hle

/-- Folding the coalescer over a sorted entry list preserves the chain
invariant and coverage, and covers every processed entry. -/
theorem coalesce_fold_inv :
    ∀ (es : List EncodedEntry) (out : List NumberRange) (cur : Option NumberRange),
      List.Pairwise entryLeR es →
      (∀ e ∈ es, entryAfter cur e) →
      ChainInv (out, cur) →
      ChainInv (es.foldl coalesceStep (out, cur))
      ∧ (∀ k hn, coveredBy (out ++ cur.toList) k hn →
          coveredBy ((es.foldl coalesceStep (out, cur)).1 ++
            (es.foldl coalesceStep (out, cur)).2.toList) k hn)
      ∧ (∀ e ∈ es, coveredBy ((es.foldl coalesceStep (out, cur)).1 ++
          (es.foldl coalesceStep (out, cur)).2.toList) (eKey e) e.house_number) := by
  intro es
  induction es with
  | nil =>
    intro out cur _ _ hchain
    exact ⟨hchain, fun k hn h => h, by simp⟩
  | cons e es ih =>
    intro out cur hsorted hafter hchain
    obtain ⟨hchain1, hpres1, hcov1, hnext1⟩ :=
      coalesceStep_inv out cur e hchain (hafter e (List.mem_cons_self _ _))
    rcases hst1 : coalesceStep (out, cur) e with ⟨out1, cur1⟩
    rw [hst1] at hchain1 hpres1 hcov1 hnext1
    have hsorted' : List.Pairwise entryLeR es := (List.pairwise_cons.mp hsorted).2
    have hafter' : ∀ q ∈ es, entryAfter cur1 q := by
      intro q hq
      exact hnext1 q ((List.pairwise_cons.mp hsorted).1 q hq)
    have IH := ih out1 cur1 hsorted' hafter' hchain1
    simp only [List.foldl_cons, hst1]
    refine ⟨IH.1, ?_, ?_⟩
    · intro k hn h
      exact IH.2.1 k hn (hpres1 k hn h)
    · intro q hq
      rcases List.mem_cons.mp hq with rfl | hq
      · exact IH.2.1 (eKey q) q.house_number hcov1
      · exact IH.2.2 q hq

/-- C1: for every original `(postal_code, house_number)` pair whose
public-space id resolves to `(psi, li)`, exactly one range emitted by
`encode_addresses` with key `(encode_pc postal_code, psi, li)` covers the
house number; and no two emitted ranges within the same
`(postal_code, public_space_index, locality_index)` group overlap. -/
theorem encode_addresses_correct (addresses : List Address)
    (public_spaces_map : List Nat → Option (Nat × Nat)) :
    (∀ a ∈ addresses, ∀ psi li,
        public_spaces_map a.public_space_id = some (psi, li) →
        ∃! r, r ∈ encode_addresses addresses public_spaces_map ∧
          covers r (encode_pc a.postal_code, psi, li) a.house_number)
    ∧ List.Pairwise
        (fun r1 r2 => gKey r1 = gKey r2 →
          r1.start + r1.length < r2.start ∨ r2.start + r2.length < r1.start)
        (encode_addresses addresses public_spaces_map) := by
  have hsorted := List.sorted_insertionSort entryLeR (entriesOf addresses public_spaces_map)
  obtain ⟨hchain, _, hcov⟩ :=
    coalesce_fold_inv (List.insertionSort entryLeR (entriesOf addresses public_spaces_map))
      [] none hsorted (fun e _ => trivial) ⟨by simp, fun _ => rfl⟩
  have hca : encode_addresses addresses public_spaces_map =
      ((List.insertionSort entryLeR (entriesOf addresses public_spaces_map)).foldl
          coalesceStep ([], none)).1 ++
        ((List.insertionSort entryLeR (entriesOf addresses public_spaces_map)).foldl
          coalesceStep ([], none)).2.toList := by
    rw [encode_addresses_eq]
    rfl
  constructor
  · intro a ha psi li hpsm
    have hmem : (⟨encode_pc a.postal_code, a.house_number, psi, li⟩ : EncodedEntry) ∈
        entriesOf addresses public_spaces_map := by
      unfold entriesOf
      rw [List.mem_filterMap]
      refine ⟨a, ha, ?_⟩
      rw [hpsm]
    have hmem2 : (⟨encode_pc a.postal_code, a.house_number, psi, li⟩ : EncodedEntry) ∈
        List.insertionSort entryLeR (entriesOf addresses public_spaces_map) :=
      (List.perm_insertionSort entryLeR _).mem_iff.mpr hmem
    have hc := hcov _ hmem2
    obtain ⟨r, hr, hcovr⟩ := hc
    rw [← hca] at hr
    refine ⟨r, ⟨hr, hcovr⟩, ?_⟩
    intro r2 hr2
    obtain ⟨hr2mem, hcov2⟩ := hr2
    by_contra hne
    have hsym : Symmetric (fun x y : NumberRange => rBefore x y ∨ rBefore y x) := by
      intro x y h
      exact h.symm
    have hpw2 : List.Pairwise (fun x y : NumberRange => rBefore x y ∨ rBefore y x)
        (encode_addresses addresses public_spaces_map) := by
      rw [hca]
      exact hchain.1.imp Or.inl
    have hrel := hpw2.forall hsym hr2mem hr hne
    obtain ⟨hg1, hs1, he1⟩ := hcovr
    obtain ⟨hg2, hs2, he2⟩ := hcov2
    have hlit : (⟨encode_pc a.postal_code, a.house_number, psi, li⟩ :
        EncodedEntry).house_number = a.house_number := rfl
    have hgg : gKey r2 = gKey r := hg2.trans hg1.symm
    rcases hrel with h | h
    · rcases h with h | ⟨_, h⟩
      · rw [hgg] at h
        exact keyLt_irrefl _ h
      · omega
    · rcases h with h | ⟨_, h⟩
      · rw [hgg] at h
        exact keyLt_irrefl _ h
      · omega
  · have hpw := hchain.1
    rw [← hca] at hpw
    refine hpw.imp ?_
    intro r1 r2 h hgeq
    rcases h with h | ⟨_, h⟩
    · rw [hgeq] at h
      exact absurd h (keyLt_irrefl _)
    · exact Or.inl h


/-! ### The binary database format (`src/database/*`)

Bytes are `List Nat` (values `< 256`).  Rust readers over a `Read` stream
are modelled as functions from the remaining byte list; the zero-copy
view accesses the full byte list by offset.  `usize` arithmetic on the
values involved cannot overflow on a 64-bit host; the separately
instrumented `from_bytes_chk` makes those unchecked additions explicit. -/

inductive DatabaseError where
  | NotFound
  | TooShort
  | InvalidMagic
  | InvalidLayout
  | DecompressionFailed
deriving DecidableEq, Repr

/-- `"BAG1"`. -/
def DATABASE_MAGIC : List Nat := [66, 65, 71, 49]

def DATABASE_HEADER_SIZE : Nat := 36

/-- Little-endian value of a byte list (first byte least significant). -/
def leVal (l : List Nat) : Nat :=
  l.foldr (fun b acc => b + 256 * acc) 0

/-- `u32::to_le_bytes` (truncating to 32 bits like the `as u32` casts). -/
def le32 (n : Nat) : List Nat :=
  [n % 256, n / 256 % 256, n / 2 ^ 16 % 256, n / 2 ^ 24 % 256]

/-- `u16::to_le_bytes`. -/
def le16 (n : Nat) : List Nat :=
  [n % 256, n / 256 % 256]

/-- `u32::saturating_add` for the offsets accumulator. -/
def satAdd32 (a b : Nat) : Nat :=
  min (a + b) (2 ^ 32 - 1)

/-- From `src/database/rw.rs`, `read_u32_bytes`: `bytes.get(o..o+4)`
then `from_le_bytes`. -/
def read_u32_bytes (bytes : List Nat) (offset : Nat) : Option Nat :=
  if offset + 4 ≤ bytes.length then
    some (leVal ((bytes.drop offset).take 4))
  else
    none

/-- From `src/database/rw.rs`, `read_u16_bytes`. -/
def read_u16_bytes (bytes : List Nat) (offset : Nat) : Option Nat :=
  if offset + 2 ≤ bytes.length then
    some (leVal ((bytes.drop offset).take 2))
  else
    none

/-- `Read::read_exact`: fail (`DecompressionFailed` in this crate's
mapping) when the stream is too short. -/
def readExactR (n : Nat) (bs : List Nat) :
    Except DatabaseError (List Nat × List Nat) :=
  if n ≤ bs.length then
    Except.ok (bs.take n, bs.drop n)
  else
    Except.error DatabaseError.DecompressionFailed

/-- From `src/database/rw.rs`, `read_u32_reader`. -/
def read_u32_reader (bs : List Nat) : Except DatabaseError (Nat × List Nat) :=
  match readExactR 4 bs with
  | Except.error e => Except.error e
  | Except.ok (buf, rest) => Except.ok (leVal buf, rest)

/-- From `src/database/rw.rs`, `read_u16_reader`. -/
def read_u16_reader (bs : List Nat) : Except DatabaseError (Nat × List Nat) :=
  match readExactR 2 bs with
  | Except.error e => Except.error e
  | Except.ok (buf, rest) => Except.ok (leVal buf, rest)

/-- From `src/database/rw.rs`, `read_bytes`. -/
def read_bytes (bs : List Nat) (len : Nat) :
    Except DatabaseError (List Nat × List Nat) :=
  readExactR len bs

/-- From `src/database/rw.rs`, `read_offsets`: `count` little-endian
`u32` values. -/
def read_offsets (bs : List Nat) : Nat → Except DatabaseError (List Nat × List Nat)
  | 0 => Except.ok ([], bs)
  | count + 1 =>
    match read_u32_reader bs with
    | Except.error e => Except.error e
    | Except.ok (v, rest) =>
      match read_offsets rest count with
      | Except.error e => Except.error e
      | Except.ok (vs, rest2) => Except.ok (v :: vs, rest2)

/-- From `src/database/layout.rs`: the parsed 36-byte header. -/
structure Header where
  locality_count : Nat
  public_space_count : Nat
  range_count : Nat
  locality_offsets_offset : Nat
  locality_data_offset : Nat
  public_space_offsets_offset : Nat
  public_space_data_offset : Nat
  ranges_offset : Nat
deriving DecidableEq, Repr

namespace Header

/-- `Header::validate_base`. -/
def validate_base (h : Header) : Except DatabaseError Unit :=
  if h.locality_offsets_offset ≠ DATABASE_HEADER_SIZE then
    Except.error DatabaseError.InvalidLayout
  else
    Except.ok ()

/-- `Header::locality_offsets_len`: `(L + 1).checked_mul(4)` on `usize`
(the check never fires for 32-bit counts on a 64-bit host). -/
def locality_offsets_len (h : Header) : Except DatabaseError Nat :=
  if (h.locality_count + 1) * 4 < 2 ^ 64 then
    Except.ok ((h.locality_count + 1) * 4)
  else
    Except.error DatabaseError.InvalidLayout

def public_space_offsets_len (h : Header) : Except DatabaseError Nat :=
  if (h.public_space_count + 1) * 4 < 2 ^ 64 then
    Except.ok ((h.public_space_count + 1) * 4)
  else
    Except.error DatabaseError.InvalidLayout

def expected_locality_data_offset (h : Header) : Except DatabaseError Nat :=
  match h.locality_offsets_len with
  | Except.error e => Except.error e
  | Except.ok n =>
    if h.locality_offsets_offset + n < 2 ^ 64 then
      Except.ok (h.locality_offsets_offset + n)
    else
      Except.error DatabaseError.InvalidLayout

def expected_public_space_offsets_offset (h : Header) (locality_data_len : Nat) :
    Except DatabaseError Nat :=
  if h.locality_data_offset + locality_data_len < 2 ^ 64 then
    Except.ok (h.locality_data_offset + locality_data_len)
  else
    Except.error DatabaseError.InvalidLayout

def expected_public_space_data_offset (h : Header) : Except DatabaseError Nat :=
  match h.public_space_offsets_len with
  | Except.error e => Except.error e
  | Except.ok n =>
    if h.public_space_offsets_offset + n < 2 ^ 64 then
      Except.ok (h.public_space_offsets_offset + n)
    else
      Except.error DatabaseError.InvalidLayout

def expected_ranges_offset (h : Header) (public_space_data_len : Nat) :
    Except DatabaseError Nat :=
  if h.public_space_data_offset + public_space_data_len < 2 ^ 64 then
    Except.ok (h.public_space_data_offset + public_space_data_len)
  else
    Except.error DatabaseError.InvalidLayout

/-- `Header::from_reader`: magic, three counts, five offsets, then
`validate_base`. -/
def from_readerM (bs : List Nat) : Except DatabaseError (Header × List Nat) :=
  match readExactR 4 bs with
  | Except.error _ => Except.error DatabaseError.DecompressionFailed
  | Except.ok (magic, r0) =>
    if magic ≠ DATABASE_MAGIC then Except.error DatabaseError.InvalidMagic
    else match read_u32_reader r0 with
    | Except.error e => Except.error e
    | Except.ok (locality_count, r1) =>
      match read_u32_reader r1 with
      | Except.error e => Except.error e
      | Except.ok (public_space_count, r2) =>
        match read_u32_reader r2 with
        | Except.error e => Except.error e
        | Except.ok (range_count, r3) =>
          match read_u32_reader r3 with
          | Except.error e => Except.error e
          | Except.ok (locality_offsets_offset, r4) =>
            match read_u32_reader r4 with
            | Except.error e => Except.error e
            | Except.ok (locality_data_offset, r5) =>
              match read_u32_reader r5 with
              | Except.error e => Except.error e
              | Except.ok (public_space_offsets_offset, r6) =>
                match read_u32_reader r6 with
                | Except.error e => Except.error e
                | Except.ok (public_space_data_offset, r7) =>
                  match read_u32_reader r7 with
                  | Except.error e => Except.error e
                  | Except.ok (ranges_offset, r8) =>
                    let header : Header :=
                      ⟨locality_count, public_space_count, range_count,
                        locality_offsets_offset, locality_data_offset,
                        public_space_offsets_offset, public_space_data_offset,
                        ranges_offset⟩
                    match header.validate_base with
                    | Except.error e => Except.error e
                    | Except.ok _ => Except.ok (header, r8)

/-- `Header::from_bytes`: length precheck, then parse via a cursor. -/
def from_bytes (bytes : List Nat) : Except DatabaseError Header :=
  if bytes.length < DATABASE_HEADER_SIZE then
    Except.error DatabaseError.TooShort
  else
    match from_readerM bytes with
    | Except.error e => Except.error e
    | Except.ok (h, _) => Except.ok h

end Header

/-- From `src/database/layout.rs`, `validate_offsets_iter` applied to a
materialised offsets vector (the owned decoder's use): first value must
be 0, values must be monotone, result is the final value. -/
def validate_offsets_go (prev : Nat) : List Nat → Except DatabaseError Nat
  | [] => Except.ok prev
  | v :: rest =>
    if v < prev then Except.error DatabaseError.InvalidLayout
    else validate_offsets_go v rest

def validate_offsets_list : List Nat → Except DatabaseError Nat
  | [] => Except.error DatabaseError.InvalidLayout
  | first :: rest =>
    if first ≠ 0 then Except.error DatabaseError.InvalidLayout
    else validate_offsets_go first rest

/-- One `OffsetsBytesIter` item: the checked index arithmetic, then a
read (`TooShort` when past the end). -/
def offsets_iter_read (bytes : List Nat) (base index : Nat) :
    Except DatabaseError Nat :=
  if index * 4 < 2 ^ 64 ∧ base + index * 4 < 2 ^ 64 then
    match read_u32_bytes bytes (base + index * 4) with
    | some v => Except.ok v
    | none => Except.error DatabaseError.TooShort
  else
    Except.error DatabaseError.InvalidLayout

/-- `validate_offsets_iter` over `OffsetsBytesIter` (the view's use),
pulling items lazily: `index` is the next item, `n` the number of items
left. -/
def validate_offsets_bytes_go (bytes : List Nat) (base : Nat) (prev index : Nat) :
    Nat → Except DatabaseError Nat
  | 0 => Except.ok prev
  | n + 1 =>
    match offsets_iter_read bytes base index with
    | Except.error e => Except.error e
    | Except.ok v =>
      if v < prev then Except.error DatabaseError.InvalidLayout
      else validate_offsets_bytes_go bytes base v (index + 1) n

def validate_offsets_bytes (bytes : List Nat) (base count : Nat) :
    Except DatabaseError Nat :=
  match count with
  | 0 => Except.error DatabaseError.InvalidLayout
  | n + 1 =>
    match offsets_iter_read bytes base 0 with
    | Except.error e => Except.error e
    | Except.ok first =>
      if first ≠ 0 then Except.error DatabaseError.InvalidLayout
      else validate_offsets_bytes_go bytes base first 1 n

/-- From `src/database/mod.rs`: the owned database (names as UTF-8 byte
lists). -/
structure Database where
  localities : List (List Nat)
  public_spaces : List (List Nat)
  ranges : List NumberRange
deriving DecidableEq, Repr

/-- From `src/database/mod.rs`: the zero-copy view's precomputed section
geometry (the backing byte slice is passed to each accessor). -/
structure DatabaseView where
  locality_count : Nat
  public_space_count : Nat
  range_count : Nat
  locality_offsets_offset : Nat
  locality_data_offset : Nat
  locality_data_end : Nat
  public_space_offsets_offset : Nat
  public_space_data_offset : Nat
  public_space_data_end : Nat
  ranges_offset : Nat
deriving DecidableEq, Repr

def RANGE_RECORD_SIZE : Nat := 16

/-- `std::str::from_utf8(..).is_ok()`: the UTF-8 well-formedness check
over raw bytes. -/
def utf8Valid : List Nat → Bool
  | [] => true
  | b :: rest =>
    if b ≤ 0x7F then utf8Valid rest
    else if 0xC2 ≤ b ∧ b ≤ 0xDF then
      match rest with
      | c1 :: rest2 => decide (0x80 ≤ c1 ∧ c1 ≤ 0xBF) && utf8Valid rest2
      | [] => false
    else if b = 0xE0 then
      match rest with
      | c1 :: c2 :: rest2 =>
        decide (0xA0 ≤ c1 ∧ c1 ≤ 0xBF) && decide (0x80 ≤ c2 ∧ c2 ≤ 0xBF) && utf8Valid rest2
      | _ => false
    else if (0xE1 ≤ b ∧ b ≤ 0xEC) ∨ b = 0xEE ∨ b = 0xEF then
      match rest with
      | c1 :: c2 :: rest2 =>
        decide (0x80 ≤ c1 ∧ c1 ≤ 0xBF) && decide (0x80 ≤ c2 ∧ c2 ≤ 0xBF) && utf8Valid rest2
      | _ => false
    else if b = 0xED then
      match rest with
      | c1 :: c2 :: rest2 =>
        decide (0x80 ≤ c1 ∧ c1 ≤ 0x9F) && decide (0x80 ≤ c2 ∧ c2 ≤ 0xBF) && utf8Valid rest2
      | _ => false
    else if b = 0xF0 then
      match rest with
      | c1 :: c2 :: c3 :: rest2 =>
        decide (0x90 ≤ c1 ∧ c1 ≤ 0xBF) && decide (0x80 ≤ c2 ∧ c2 ≤ 0xBF) &&
          decide (0x80 ≤ c3 ∧ c3 ≤ 0xBF) && utf8Valid rest2
      | _ => false
    else if 0xF1 ≤ b ∧ b ≤ 0xF3 then
      match rest with
      | c1 :: c2 :: c3 :: rest2 =>
        decide (0x80 ≤ c1 ∧ c1 ≤ 0xBF) && decide (0x80 ≤ c2 ∧ c2 ≤ 0xBF) &&
          decide (0x80 ≤ c3 ∧ c3 ≤ 0xBF) && utf8Valid rest2
      | _ => false
    else if b = 0xF4 then
      match rest with
      | c1 :: c2 :: c3 :: rest2 =>
        decide (0x80 ≤ c1 ∧ c1 ≤ 0x8F) && decide (0x80 ≤ c2 ∧ c2 ≤ 0xBF) &&
          decide (0x80 ≤ c3 ∧ c3 ≤ 0xBF) && utf8Valid rest2
      | _ => false
    else false

/-- From `src/database/decode.rs`, `decode_names`: walk the consecutive
offset pairs, bounds-check each slice, and require valid UTF-8. -/
def decode_names_go (data : List Nat) : List Nat → Except DatabaseError (List (List Nat))
  | a :: b :: rest =>
    if a > b ∨ b > data.length then Except.error DatabaseError.InvalidLayout
    else
      let name := (data.drop a).take (b - a)
      if utf8Valid name then
        match decode_names_go data (b :: rest) with
        | Except.error e => Except.error e
        | Except.ok names => Except.ok (name :: names)
      else
        Except.error DatabaseError.InvalidLayout
  | _ => Except.ok []

def decode_names (offsets : List Nat) (data : List Nat) :
    Except DatabaseError (List (List Nat)) :=
  if offsets.length < 2 then Except.error DatabaseError.InvalidLayout
  else decode_names_go data offsets

/-- The range-record loop of `Database::from_reader`. -/
def read_ranges (bs : List Nat) : Nat → Except DatabaseError (List NumberRange × List Nat)
  | 0 => Except.ok ([], bs)
  | count + 1 =>
    match read_u32_reader bs with
    | Except.error e => Except.error e
    | Except.ok (postal_code, r1) =>
      match read_u32_reader r1 with
      | Except.error e => Except.error e
      | Except.ok (start, r2) =>
        match read_u16_reader r2 with
        | Except.error e => Except.error e
        | Except.ok (length, r3) =>
          match read_u32_reader r3 with
          | Except.error e => Except.error e
          | Except.ok (public_space_index, r4) =>
            match read_u16_reader r4 with
            | Except.error e => Except.error e
            | Except.ok (locality_index, r5) =>
              match read_ranges r5 count with
              | Except.error e => Except.error e
              | Except.ok (ranges, rest) =>
                Except.ok
                  (⟨postal_code, start, length, public_space_index, locality_index⟩ :: ranges,
                    rest)

/-- From `src/database/decode.rs`, `Database::from_reader` (sequential
owned decoder over the decompressed byte stream). -/
def Database.from_reader (bs : List Nat) : Except DatabaseError Database :=
  match Header.from_readerM bs with
  | Except.error e => Except.error e
  | Except.ok (header, r0) =>
    match read_offsets r0 (header.locality_count + 1) with
    | Except.error e => Except.error e
    | Except.ok (locality_offsets, r1) =>
      match validate_offsets_list locality_offsets with
      | Except.error e => Except.error e
      | Except.ok locality_data_len =>
        match header.expected_locality_data_offset with
        | Except.error e => Except.error e
        | Except.ok expected_locality_data_offset =>
          if header.locality_data_offset ≠ expected_locality_data_offset then
            Except.error DatabaseError.InvalidLayout
          else
            match read_bytes r1 locality_data_len with
            | Except.error e => Except.error e
            | Except.ok (locality_data, r2) =>
              match decode_names locality_offsets locality_data with
              | Except.error e => Except.error e
              | Except.ok localities =>
                match header.expected_public_space_offsets_offset locality_data_len with
                | Except.error e => Except.error e
                | Except.ok expected_public_space_offsets_offset =>
                  if header.public_space_offsets_offset ≠ expected_public_space_offsets_offset then
                    Except.error DatabaseError.InvalidLayout
                  else
                    match read_offsets r2 (header.public_space_count + 1) with
                    | Except.error e => Except.error e
                    | Except.ok (public_space_offsets, r3) =>
                      match validate_offsets_list public_space_offsets with
                      | Except.error e => Except.error e
                      | Except.ok public_space_data_len =>
                        match header.expected_public_space_data_offset with
                        | Except.error e => Except.error e
                        | Except.ok expected_public_space_data_offset =>
                          if header.public_space_data_offset ≠ expected_public_space_data_offset then
                            Except.error DatabaseError.InvalidLayout
                          else
                            match read_bytes r3 public_space_data_len with
                            | Except.error e => Except.error e
                            | Except.ok (public_space_data, r4) =>
                              match decode_names public_space_offsets public_space_data with
                              | Except.error e => Except.error e
                              | Except.ok public_spaces =>
                                match header.expected_ranges_offset public_space_data_len with
                                | Except.error e => Except.error e
                                | Except.ok expected_ranges_offset =>
                                  if header.ranges_offset ≠ expected_ranges_offset then
                                    Except.error DatabaseError.InvalidLayout
                                  else
                                    match read_ranges r4 header.range_count with
                                    | Except.error e => Except.error e
                                    | Except.ok (ranges, _) =>
                                      Except.ok ⟨localities, public_spaces, ranges⟩

/-- From `src/database/view.rs`, `DatabaseView::from_bytes`: header and
cross-offset validation for zero-copy access. -/
def DatabaseView.from_bytes (bytes : List Nat) : Except DatabaseError DatabaseView :=
  match Header.from_bytes bytes with
  | Except.error e => Except.error e
  | Except.ok header =>
    match header.locality_offsets_len with
    | Except.error e => Except.error e
    | Except.ok locality_offsets_len =>
      if header.locality_offsets_offset + locality_offsets_len ≥ 2 ^ 64 then
        Except.error DatabaseError.InvalidLayout
      else
        match header.expected_locality_data_offset with
        | Except.error e => Except.error e
        | Except.ok expected_locality_data_offset =>
          if header.locality_offsets_offset + locality_offsets_len > bytes.length ∨
              header.locality_data_offset ≠ expected_locality_data_offset then
            Except.error DatabaseError.InvalidLayout
          else
            match validate_offsets_bytes bytes header.locality_offsets_offset
                (header.locality_count + 1) with
            | Except.error e => Except.error e
            | Except.ok locality_data_len =>
              if locality_data_len = 0 ∧ header.locality_count ≠ 0 then
                Except.error DatabaseError.InvalidLayout
              else
                match header.expected_public_space_offsets_offset locality_data_len with
                | Except.error e => Except.error e
                | Except.ok public_space_offsets_expected =>
                  if header.public_space_offsets_offset ≠ public_space_offsets_expected then
                    Except.error DatabaseError.InvalidLayout
                  else
                    match header.public_space_offsets_len with
                    | Except.error e => Except.error e
                    | Except.ok public_space_offsets_len =>
                      if header.public_space_offsets_offset + public_space_offsets_len ≥ 2 ^ 64 then
                        Except.error DatabaseError.InvalidLayout
                      else
                        match header.expected_public_space_data_offset with
                        | Except.error e => Except.error e
                        | Except.ok expected_public_space_data_offset =>
                          if header.public_space_offsets_offset + public_space_offsets_len >
                              bytes.length ∨
                              header.public_space_data_offset ≠ expected_public_space_data_offset then
                            Except.error DatabaseError.InvalidLayout
                          else
                            match validate_offsets_bytes bytes header.public_space_offsets_offset
                                (header.public_space_count + 1) with
                            | Except.error e => Except.error e
                            | Except.ok public_space_data_len =>
                              if public_space_data_len = 0 ∧ header.public_space_count ≠ 0 then
                                Except.error DatabaseError.InvalidLayout
                              else
                                match header.expected_ranges_offset public_space_data_len with
                                | Except.error e => Except.error e
                                | Except.ok ranges_expected =>
                                  if header.ranges_offset ≠ ranges_expected then
                                    Except.error DatabaseError.InvalidLayout
                                  else if header.range_count * RANGE_RECORD_SIZE ≥ 2 ^ 64 then
                                    Except.error DatabaseError.InvalidLayout
                                  else if header.ranges_offset +
                                      header.range_count * RANGE_RECORD_SIZE ≥ 2 ^ 64 then
                                    Except.error DatabaseError.InvalidLayout
                                  else if header.ranges_offset +
                                      header.range_count * RANGE_RECORD_SIZE > bytes.length then
                                    Except.error DatabaseError.InvalidLayout
                                  else
                                    Except.ok
                                      ⟨header.locality_count, header.public_space_count,
                                        header.range_count, header.locality_offsets_offset,
                                        header.locality_data_offset,
                                        header.public_space_offsets_offset,
                                        header.public_space_offsets_offset,
                                        header.public_space_data_offset,
                                        header.ranges_offset, header.ranges_offset⟩

/-! ### View accessors and the two lookups (`src/database/view.rs`,
`src/database/lookup.rs`) -/

namespace DatabaseView

/-- `DatabaseView::range_offset`: checked index arithmetic plus a bounds
test on the 16-byte record. -/
def range_offset (bytes : List Nat) (v : DatabaseView) (index : Nat) : Option Nat :=
  if index * RANGE_RECORD_SIZE < 2 ^ 64 ∧ v.ranges_offset + index * RANGE_RECORD_SIZE < 2 ^ 64 then
    let base := v.ranges_offset + index * RANGE_RECORD_SIZE
    if base + RANGE_RECORD_SIZE ≤ bytes.length then some base else none
  else
    none

/-- `DatabaseView::range_postal_code`. -/
def range_postal_code (bytes : List Nat) (v : DatabaseView) (index : Nat) : Option Nat :=
  match range_offset bytes v index with
  | none => none
  | some base => read_u32_bytes bytes base

/-- `DatabaseView::range_at` (the `RangeRef` fields). -/
def range_at (bytes : List Nat) (v : DatabaseView) (index : Nat) :
    Option (Nat × Nat × Nat × Nat) :=
  match range_offset bytes v index with
  | none => none
  | some base =>
    match read_u32_bytes bytes (base + 4) with
    | none => none
    | some start =>
      match read_u16_bytes bytes (base + 8) with
      | none => none
      | some length =>
        match read_u32_bytes bytes (base + 10) with
        | none => none
        | some public_space_index =>
          match read_u16_bytes bytes (base + 14) with
          | none => none
          | some locality_index => some (start, length, public_space_index, locality_index)

/-- `DatabaseView::name_at`. -/
def name_at (bytes : List Nat) (offsets_offset data_offset data_end : Nat)
    (index count : Nat) : Option (List Nat) :=
  if index ≥ count then none
  else
    match read_u32_bytes bytes (offsets_offset + index * 4) with
    | none => none
    | some start =>
      match read_u32_bytes bytes (offsets_offset + (index + 1) * 4) with
      | none => none
      | some ed =>
        if start > ed then none
        else if data_offset + start ≥ 2 ^ 64 ∨ data_offset + ed ≥ 2 ^ 64 then none
        else
          let start_abs := data_offset + start
          let end_abs := data_offset + ed
          if end_abs > data_end ∨ start_abs > end_abs then none
          else
            let slice := (bytes.drop start_abs).take (end_abs - start_abs)
            if end_abs ≤ bytes.length then
              if utf8Valid slice then some slice else none
            else none

/-- `DatabaseView::locality_name`. -/
def locality_name (bytes : List Nat) (v : DatabaseView) (index : Nat) : Option (List Nat) :=
  name_at bytes v.locality_offsets_offset v.locality_data_offset v.locality_data_end
    index v.locality_count

/-- `DatabaseView::public_space_name`. -/
def public_space_name (bytes : List Nat) (v : DatabaseView) (index : Nat) :
    Option (List Nat) :=
  name_at bytes v.public_space_offsets_offset v.public_space_data_offset
    v.public_space_data_end index v.public_space_count

end DatabaseView

/-- From `src/database/util.rs`, `partition_point_range`: the classic
midpoint binary-search loop.  The interval shrinks every iteration, so
`len` iterations always suffice; the first argument is that iteration
bound. -/
def ppGo (pred : Nat → Bool) : Nat → Nat → Nat → Nat
  | 0, left, _ => left
  | fuel + 1, left, right =>
    if left < right then
      let mid := left + (right - left) / 2
      if pred mid then ppGo pred fuel (mid + 1) right else ppGo pred fuel left mid
    else left

def partition_point_range (len : Nat) (pred : Nat → Bool) : Nat :=
  ppGo pred len 0 len

/-- The linear scan of `DatabaseView::lookup` over indices
`[i, i + n)`: `?`-propagation of a failed read, name resolution or
overflow aborts the whole lookup with `none`. -/
def viewScan (bytes : List Nat) (v : DatabaseView) (pc_encoded house_number : Nat) :
    Nat → Nat → Option (List Nat × List Nat)
  | _, 0 => none
  | i, n + 1 =>
    match DatabaseView.range_at bytes v i with
    | none => none
    | some (start, length, public_space_index, locality_index) =>
      if start + length < 2 ^ 32 then
        if start ≤ house_number ∧ house_number ≤ start + length then
          match DatabaseView.public_space_name bytes v public_space_index with
          | none => none
          | some public_space =>
            match DatabaseView.locality_name bytes v locality_index with
            | none => none
            | some locality => some (public_space, locality)
        else
          viewScan bytes v pc_encoded house_number (i + 1) n
      else
        none

/-- From `src/database/lookup.rs`, `DatabaseView::lookup`. -/
def DatabaseView.lookup (bytes : List Nat) (v : DatabaseView)
    (postalcode : List Nat) (house_number : Nat) : Option (List Nat × List Nat) :=
  match normalize_postalcode postalcode with
  | none => none
  | some normalized =>
    let pc_encoded := encode_pc normalized
    let start := partition_point_range v.range_count fun idx =>
      match DatabaseView.range_postal_code bytes v idx with
      | none => true
      | some code => decide (code < pc_encoded)
    let ed := partition_point_range v.range_count fun idx =>
      match DatabaseView.range_postal_code bytes v idx with
      | none => true
      | some code => decide (code ≤ pc_encoded)
    viewScan bytes v pc_encoded house_number start (ed - start)

/-- `Database::locality_name` (owned). -/
def Database.locality_name (db : Database) (index : Nat) : Option (List Nat) :=
  db.localities.get? index

/-- `Database::public_space_name` (owned). -/
def Database.public_space_name (db : Database) (index : Nat) : Option (List Nat) :=
  db.public_spaces.get? index

/-- The linear scan of `Database::lookup`: a range whose
`start + length` overflows `u32` is skipped (`checked_add` + `continue`);
a failed name resolution aborts with `none`. -/
def dbScan (db : Database) (house_number : Nat) : Nat → Nat → Option (List Nat × List Nat)
  | _, 0 => none
  | i, n + 1 =>
    match db.ranges.get? i with
    | none => none
    | some range =>
      if range.start + range.length < 2 ^ 32 then
        if range.start ≤ house_number ∧ house_number ≤ range.start + range.length then
          match db.public_space_name range.public_space_index with
          | none => none
          | some public_space_name =>
            match db.locality_name range.locality_index with
            | none => none
            | some locality_name => some (public_space_name, locality_name)
        else
          dbScan db house_number (i + 1) n
      else
        dbScan db house_number (i + 1) n

/-- From `src/database/lookup.rs`, `Database::lookup` (owned decoder):
`Vec::partition_point` uses the same midpoint binary search. -/
def Database.lookup (db : Database) (postalcode : List Nat) (house_number : Nat) :
    Option (List Nat × List Nat) :=
  match normalize_postalcode postalcode with
  | none => none
  | some normalized =>
    let pc_encoded := encode_pc normalized
    let start := partition_point_range db.ranges.length fun idx =>
      decide ((db.ranges.getD idx ⟨0, 0, 0, 0, 0⟩).postal_code < pc_encoded)
    let ed := partition_point_range db.ranges.length fun idx =>
      decide ((db.ranges.getD idx ⟨0, 0, 0, 0, 0⟩).postal_code ≤ pc_encoded)
    dbScan db house_number start (ed - start)

/-- The view arm of the `Localities` iterator (`src/database/mod.rs`):
indices `0 ≤ current < locality_count` are walked in order while
`current ≤ u16::MAX`; invalid names are skipped. -/
def viewLocalitiesGo (bytes : List Nat) (v : DatabaseView) :
    Nat → Nat → List (List Nat)
  | 0, _ => []
  | fuel + 1, index =>
    if index < v.locality_count then
      if index > 65535 then []
      else
        match DatabaseView.locality_name bytes v index with
        | some name => name :: viewLocalitiesGo bytes v fuel (index + 1)
        | none => viewLocalitiesGo bytes v fuel (index + 1)
    else []

def viewLocalities (bytes : List Nat) (v : DatabaseView) : List (List Nat) :=
  viewLocalitiesGo bytes v (min v.locality_count 65536) 0

/-! ### The encoder (`src/database/encode.rs`) -/

/-- The offsets table written for a name block: a leading 0, then
`u32::saturating_add`-accumulated name lengths, each as little-endian
bytes. -/
def offsetsBytes (names : List (List Nat)) : List Nat :=
  le32 0 ++ (offsetsGo 0 names)
where
  offsetsGo (offset : Nat) : List (List Nat) → List Nat
    | [] => []
    | name :: rest =>
      let offset2 := satAdd32 offset name.length
      le32 offset2 ++ offsetsGo offset2 rest

/-- One 16-byte range record. -/
def rangeBytes (r : NumberRange) : List Nat :=
  le32 r.postal_code ++ le32 r.start ++ le16 r.length ++
    le32 r.public_space_index ++ le16 r.locality_index

/-- From `src/database/encode.rs`, `Database::write_database`: the full
byte stream (header, locality offsets and data, public-space offsets and
data, range records).  Offsets wider than `u32` are truncated by the
`as u32` casts, as in the source. -/
def Database.write_database (db : Database)
    (locality_count public_space_count range_count : Nat) : List Nat :=
  let locality_offsets_offset := DATABASE_HEADER_SIZE
  let locality_offsets_len := (locality_count + 1) * 4
  let locality_data_offset := locality_offsets_offset + locality_offsets_len
  let locality_data_len := (db.localities.map List.length).sum
  let public_space_offsets_offset := locality_data_offset + locality_data_len
  let public_space_offsets_len := (public_space_count + 1) * 4
  let public_space_data_offset := public_space_offsets_offset + public_space_offsets_len
  let public_space_data_len := (db.public_spaces.map List.length).sum
  let ranges_offset := public_space_data_offset + public_space_data_len
  DATABASE_MAGIC ++
    le32 locality_count ++ le32 public_space_count ++ le32 range_count ++
    le32 (locality_offsets_offset % 2 ^ 32) ++
    le32 (locality_data_offset % 2 ^ 32) ++
    le32 (public_space_offsets_offset % 2 ^ 32) ++
    le32 (public_space_data_offset % 2 ^ 32) ++
    le32 (ranges_offset % 2 ^ 32) ++
    offsetsBytes db.localities ++
    db.localities.flatten ++
    offsetsBytes db.public_spaces ++
    db.public_spaces.flatten ++
    (db.ranges.map rangeBytes).flatten

/-! ### C6: the scan uses checked, not saturating, end arithmetic -/

/-- The database used against C6: one range starting at `u32::MAX` with
length 1, so `start + length` overflows `u32`. -/
def c6db : Database :=
  ⟨[[65]], [[66]], [⟨encode_pc [49, 50, 51, 52, 65, 66], 2 ^ 32 - 1, 1, 0, 0⟩]⟩

/-- C6 (amended): each range's end is computed with `checked_add`, not a
saturating add.  In the owned scan a range whose `start + length`
overflows `u32` is skipped; in the zero-copy scan it aborts the whole
lookup with `none`; a pair is returned only when
`start ≤ hn ≤ start + length < 2 ^ 32`. -/
theorem scan_checked_add (db : Database) (bytes : List Nat) (v : DatabaseView)
    (hn i n : Nat) (r : NumberRange) (hr : db.ranges.get? i = some r)
    (hov : 2 ^ 32 ≤ r.start + r.length)
    (st len psi li : Nat)
    (hva : DatabaseView.range_at bytes v i = some (st, len, psi, li))
    (hvov : 2 ^ 32 ≤ st + len) :
    dbScan db hn i (n + 1) = dbScan db hn (i + 1) n
    ∧ viewScan bytes v 0 hn i (n + 1) = none := by
  constructor
  · simp only [dbScan]
    simp only [hr]
    rw [if_neg (by omega)]
  · simp only [viewScan]
    simp only [hva]
    rw [if_neg (by omega)]

/-- Witness for C6's amended statement at a concrete overflowing range,
on both the owned and the zero-copy scan. -/
theorem scan_checked_add_witness :
    dbScan c6db (2 ^ 32 - 1) 0 1 = dbScan c6db (2 ^ 32 - 1) 1 0
    ∧ viewScan (rangeBytes ⟨0, 2 ^ 32 - 1, 1, 0, 0⟩) ⟨0, 0, 1, 0, 0, 0, 0, 0, 0, 0⟩ 0
        (2 ^ 32 - 1) 0 1 = none :=
  scan_checked_add c6db (rangeBytes ⟨0, 2 ^ 32 - 1, 1, 0, 0⟩)
    ⟨0, 0, 1, 0, 0, 0, 0, 0, 0, 0⟩ (2 ^ 32 - 1) 0 0
    ⟨encode_pc [49, 50, 51, 52, 65, 66], 2 ^ 32 - 1, 1, 0, 0⟩
    (by decide) (by decide) (2 ^ 32 - 1) 1 0 0 (by decide) (by decide)

/-- C6 counterexample: the range would cover `u32::MAX` under the
claimed saturating arithmetic, but the code's `checked_add` skips it, so
the lookup finds nothing. -/
theorem lookup_not_saturating :
    (∃ r, c6db.ranges.get? 0 = some r ∧ 2 ^ 32 ≤ r.start + r.length ∧
      r.postal_code = encode_pc [49, 50, 51, 52, 65, 66] ∧ r.start ≤ 2 ^ 32 - 1) ∧
      Database.lookup c6db [49, 50, 51, 52, 65, 66] (2 ^ 32 - 1) = none := by
  constructor
  · exact ⟨_, rfl, by decide, rfl, by decide⟩
  · decide

/-! ### C10: the view performs no UTF-8 validation of name blocks -/

/-- A database file whose first locality name is the single byte `0xFF`
(invalid UTF-8): magic, `L = 2`, `P = 1`, `R = 1`, the offset tables and
name blocks, and one range (`start = 1`, `length = 3`) whose
`locality_index` resolves to the invalid name. -/
def c10file : List Nat :=
  DATABASE_MAGIC ++ le32 2 ++ le32 1 ++ le32 1 ++
    le32 36 ++ le32 48 ++ le32 50 ++ le32 58 ++ le32 59 ++
    (le32 0 ++ le32 1 ++ le32 2) ++ [255, 66] ++
    (le32 0 ++ le32 1) ++ [65] ++
    (le32 (encode_pc [49, 50, 51, 52, 65, 66]) ++ le32 1 ++ le16 3 ++ le32 0 ++ le16 0)

/-- The view `from_bytes` produces for `c10file`. -/
def c10view : DatabaseView :=
  ⟨2, 1, 1, 36, 48, 50, 50, 58, 59, 59⟩

/-- C10: `DatabaseView::from_bytes` does not validate name bytes as
UTF-8, so `c10file` loads `Ok` even though its first locality name is
invalid UTF-8; a lookup that matches the range resolving to that name
fails soft with `none`; the view's `localities()` iterator silently
skips the name (yielding only the valid `"B"`); the owned decoder, by
contrast, rejects the same stream at load. -/
theorem from_bytes_no_utf8_validation :
    utf8Valid [255] = false
    ∧ DatabaseView.from_bytes c10file = Except.ok c10view
    ∧ (∃ st len psi li, DatabaseView.range_at c10file c10view 0 = some (st, len, psi, li)
        ∧ st ≤ 2 ∧ 2 ≤ st + len
        ∧ DatabaseView.locality_name c10file c10view li = none)
    ∧ DatabaseView.lookup c10file c10view [49, 50, 51, 52, 65, 66] 2 = none
    ∧ viewLocalities c10file c10view = [[66]]
    ∧ Database.from_reader c10file = Except.error DatabaseError.InvalidLayout := by
  refine ⟨by decide, by rfl, ⟨1, 3, 0, 0, by decide, by decide, by decide, by decide⟩,
    by decide, by decide, by rfl⟩

/-! ### C3: encode-then-decode round trip -/

/-- A name suitable for the binary format: byte values with valid
UTF-8. -/
def NameWF (name : List Nat) : Prop :=
  (∀ b ∈ name, b < 256) ∧ utf8Valid name = true

instance (name : List Nat) : Decidable (NameWF name) := by
  unfold NameWF
  infer_instance

/-- Field bounds of a range record (`u32`/`u16` typing). -/
def RangeWF (r : NumberRange) : Prop :=
  r.postal_code < 2 ^ 32 ∧ r.start < 2 ^ 32 ∧ r.length < 2 ^ 16 ∧
    r.public_space_index < 2 ^ 32 ∧ r.locality_index < 2 ^ 16

instance (r : NumberRange) : Decidable (RangeWF r) := by
  unfold RangeWF
  infer_instance

/-- Spec section 3's range-order invariant: sorted by the composite key;
within a group, strictly gap-separated. -/
def rStrictBefore (r1 r2 : NumberRange) : Prop :=
  keyLt (gKey r1) (gKey r2) ∨
    (gKey r1 = gKey r2 ∧ r1.start + r1.length + 1 < r2.start)

instance (a b : Nat × Nat × Nat) : Decidable (keyLt a b) := by
  unfold keyLt
  infer_instance

instance (r1 r2 : NumberRange) : Decidable (rStrictBefore r1 r2) := by
  unfold rStrictBefore
  infer_instance

instance (a b : List Nat) : Decidable (nameLt a b) := by
  unfold nameLt
  infer_instance

/-- The build invariants of spec section 3, together with the `u32`
typing of the counts and the format's requirement that all section
offsets fit `u32`. -/
def DatabaseWF (db : Database) : Prop :=
  db.localities.length ≤ 65536 ∧
    db.localities.length < 2 ^ 32 ∧
    db.public_spaces.length < 2 ^ 32 ∧
    db.ranges.length < 2 ^ 32 ∧
    (∀ n ∈ db.localities, NameWF n) ∧
    (∀ n ∈ db.public_spaces, NameWF n) ∧
    (∀ r ∈ db.ranges, RangeWF r) ∧
    List.Pairwise nameLt db.localities ∧
    List.Pairwise nameLt db.public_spaces ∧
    List.Pairwise rStrictBefore db.ranges ∧
    (∀ r ∈ db.ranges, r.public_space_index < db.public_spaces.length ∧
      r.locality_index < db.localities.length) ∧
    36 + (db.localities.length + 1) * 4 + (db.localities.map List.length).sum +
        (db.public_spaces.length + 1) * 4 + (db.public_spaces.map List.length).sum < 2 ^ 32

instance (db : Database) : Decidable (DatabaseWF db) := by
  unfold DatabaseWF
  infer_instance

theorem le32_length (v : Nat) : (le32 v).length = 4 := rfl

theorem le16_length (v : Nat) : (le16 v).length = 2 := rfl

theorem leVal_le32 (v : Nat) : leVal (le32 v) = v % 2 ^ 32 := by
  simp only [le32, leVal, List.foldr]
  omega

theorem leVal_le16 (v : Nat) : leVal (le16 v) = v % 2 ^ 16 := by
  simp only [le16, leVal, List.foldr]
  omega

theorem readExactR_append (p rest : List Nat) :
    readExactR p.length (p ++ rest) = Except.ok (p, rest) := by
  unfold readExactR
  rw [if_pos (by simp)]
  rw [List.take_left, List.drop_left]

theorem readExactR_exact (n : Nat) (p rest : List Nat) (h : p.length = n) :
    readExactR n (p ++ rest) = Except.ok (p, rest) := by
  subst h
  exact readExactR_append p rest

theorem read_u32_reader_le32 (v : Nat) (rest : List Nat) (hv : v < 2 ^ 32) :
    read_u32_reader (le32 v ++ rest) = Except.ok (v, rest) := by
  unfold read_u32_reader
  rw [readExactR_exact 4 (le32 v) rest (le32_length v)]
  dsimp only
  rw [leVal_le32, Nat.mod_eq_of_lt hv]

theorem read_u16_reader_le16 (v : Nat) (rest : List Nat) (hv : v < 2 ^ 16) :
    read_u16_reader (le16 v ++ rest) = Except.ok (v, rest) := by
  unfold read_u16_reader
  rw [readExactR_exact 2 (le16 v) rest (le16_length v)]
  dsimp only
  rw [leVal_le16, Nat.mod_eq_of_lt hv]

/-- The header `write_database` emits parses back to the header it
encodes (all written values below `2 ^ 32`). -/
theorem from_readerM_encoded (L P R o1 o2 o3 o4 o5 : Nat) (rest : List Nat)
    (hL : L < 2 ^ 32) (hP : P < 2 ^ 32) (hR : R < 2 ^ 32)
    (h1 : o1 = 36) (h1b : o1 < 2 ^ 32) (h2 : o2 < 2 ^ 32) (h3 : o3 < 2 ^ 32)
    (h4 : o4 < 2 ^ 32) (h5 : o5 < 2 ^ 32) :
    Header.from_readerM
        (DATABASE_MAGIC ++ (le32 L ++ (le32 P ++ (le32 R ++ (le32 o1 ++ (le32 o2 ++
          (le32 o3 ++ (le32 o4 ++ (le32 o5 ++ rest))))))))) =
      Except.ok (⟨L, P, R, o1, o2, o3, o4, o5⟩, rest) := by
  unfold Header.from_readerM
  simp only [List.append_assoc]
  rw [readExactR_exact 4 DATABASE_MAGIC _ rfl]
  dsimp only
  rw [if_neg (by simp)]
  rw [read_u32_reader_le32 L _ hL]
  dsimp only
  rw [read_u32_reader_le32 P _ hP]
  dsimp only
  rw [read_u32_reader_le32 R _ hR]
  dsimp only
  rw [read_u32_reader_le32 o1 _ h1b]
  dsimp only
  rw [read_u32_reader_le32 o2 _ h2]
  dsimp only
  rw [read_u32_reader_le32 o3 _ h3]
  dsimp only
  rw [read_u32_reader_le32 o4 _ h4]
  dsimp only
  rw [read_u32_reader_le32 o5 _ h5]
  dsimp only
  unfold Header.validate_base
  rw [if_neg (by simp [h1, DATABASE_HEADER_SIZE])]

/-- The offset values (after the leading 0) that `offsetsBytes`
serialises. -/
def offsValsFrom (offset : Nat) : List (List Nat) → List Nat
  | [] => []
  | name :: rest =>
    satAdd32 offset name.length :: offsValsFrom (satAdd32 offset name.length) rest

theorem read_offsets_offsetsGo (names : List (List Nat)) :
    ∀ (off : Nat) (rest : List Nat),
      read_offsets (offsetsBytes.offsetsGo off names ++ rest) names.length =
        Except.ok (offsValsFrom off names, rest) := by
  induction names with
  | nil =>
    intro off rest
    simp [offsetsBytes.offsetsGo, offsValsFrom, read_offsets]
  | cons n rest2 ih =>
    intro off r
    have hsat : satAdd32 off n.length < 2 ^ 32 := by
      unfold satAdd32
      omega
    simp only [offsetsBytes.offsetsGo, offsValsFrom, List.length_cons, read_offsets,
      List.append_assoc]
    rw [read_u32_reader_le32 _ _ hsat]
    dsimp only
    rw [ih]

theorem read_offsets_offsetsBytes (names : List (List Nat)) (rest : List Nat) :
    read_offsets (offsetsBytes names ++ rest) (names.length + 1) =
      Except.ok (0 :: offsValsFrom 0 names, rest) := by
  unfold offsetsBytes
  simp only [List.append_assoc, read_offsets]
  rw [read_u32_reader_le32 0 _ (by norm_num)]
  dsimp only
  rw [read_offsets_offsetsGo]

theorem validate_offsets_go_vals (names : List (List Nat)) :
    ∀ off : Nat, off + (names.map List.length).sum < 2 ^ 32 →
      validate_offsets_go off (offsValsFrom off names) =
        Except.ok (off + (names.map List.length).sum) := by
  induction names with
  | nil =>
    intro off _
    simp [offsValsFrom, validate_offsets_go]
  | cons n rest ih =>
    intro off h
    simp only [List.map_cons, List.sum_cons] at h
    have hsat : satAdd32 off n.length = off + n.length := by
      unfold satAdd32
      omega
    simp only [offsValsFrom, validate_offsets_go, hsat]
    rw [if_neg (by omega)]
    rw [ih (off + n.length) (by omega)]
    simp only [List.map_cons, List.sum_cons]
    congr 1
    omega

theorem validate_offsets_list_vals (names : List (List Nat))
    (h : (names.map List.length).sum < 2 ^ 32) :
    validate_offsets_list (0 :: offsValsFrom 0 names) =
      Except.ok ((names.map List.length).sum) := by
  have h0 : validate_offsets_list (0 :: offsValsFrom 0 names) =
      validate_offsets_go 0 (offsValsFrom 0 names) := by
    simp [validate_offsets_list]
  rw [h0]
  have := validate_offsets_go_vals names 0 (by omega)
  simpa using this

theorem decode_names_go_flatten :
    ∀ (names : List (List Nat)) (off : Nat) (data : List Nat),
      data.drop off = names.flatten →
      off + (names.map List.length).sum ≤ data.length →
      off + (names.map List.length).sum < 2 ^ 32 →
      (∀ n ∈ names, utf8Valid n = true) →
      decode_names_go data (off :: offsValsFrom off names) = Except.ok names := by
  intro names
  induction names with
  | nil =>
    intro off data _ _ _ _
    simp [offsValsFrom, decode_names_go]
  | cons n rest ih =>
    intro off data hdrop hle hlt hvalid
    simp only [List.map_cons, List.sum_cons] at hle hlt
    have hsat : satAdd32 off n.length = off + n.length := by
      unfold satAdd32
      omega
    have hname : (data.drop off).take (off + n.length - off) = n := by
      rw [show off + n.length - off = n.length by omega, hdrop]
      simp only [List.flatten_cons]
      exact List.take_left n rest.flatten
    have hdrop2 : data.drop (off + n.length) = rest.flatten := by
      have h3 : (data.drop off).drop n.length = data.drop (off + n.length) := by
        rw [List.drop_drop]
      rw [← h3, hdrop]
      simp only [List.flatten_cons]
      exact List.drop_left n rest.flatten
    simp only [offsValsFrom, hsat, decode_names_go]
    rw [if_neg (by omega)]
    rw [hname]
    rw [if_pos (hvalid n (List.mem_cons_self _ _))]
    rw [ih (off + n.length) data hdrop2 (by omega) (by omega)
      (fun q hq => hvalid q (List.mem_cons_of_mem _ hq))]

theorem read_ranges_encoded :
    ∀ (ranges : List NumberRange) (rest : List Nat),
      (∀ r ∈ ranges, RangeWF r) →
      read_ranges ((ranges.map rangeBytes).flatten ++ rest) ranges.length =
        Except.ok (ranges, rest) := by
  intro ranges
  induction ranges with
  | nil =>
    intro rest _
    simp [read_ranges]
  | cons r rs ih =>
    intro rest hwf
    obtain ⟨h1, h2, h3, h4, h5⟩ := hwf r (List.mem_cons_self _ _)
    simp only [List.map_cons, List.flatten_cons, List.length_cons, read_ranges,
      rangeBytes, List.append_assoc]
    rw [read_u32_reader_le32 _ _ h1]
    dsimp only
    rw [read_u32_reader_le32 _ _ h2]
    dsimp only
    rw [read_u16_reader_le16 _ _ h3]
    dsimp only
    rw [read_u32_reader_le32 _ _ h4]
    dsimp only
    rw [read_u16_reader_le16 _ _ h5]
    dsimp only
    rw [ih rest (fun q hq => hwf q (List.mem_cons_of_mem _ hq))]

theorem offsValsFrom_length (off : Nat) (names : List (List Nat)) :
    (offsValsFrom off names).length = names.length := by
  induction names generalizing off with
  | nil => rfl
  | cons n rest ih => simp [offsValsFrom, ih]

theorem read_ranges_encoded_nil (ranges : List NumberRange)
    (hwf : ∀ r ∈ ranges, RangeWF r) :
    read_ranges ((ranges.map rangeBytes).flatten) ranges.length =
      Except.ok (ranges, []) := by
  have := read_ranges_encoded ranges [] hwf
  simpa using this

theorem expected_locality_data_offset_ok (h : Header)
    (hb : h.locality_offsets_offset + (h.locality_count + 1) * 4 < 2 ^ 64) :
    h.expected_locality_data_offset =
      Except.ok (h.locality_offsets_offset + (h.locality_count + 1) * 4) := by
  unfold Header.expected_locality_data_offset Header.locality_offsets_len
  rw [if_pos (show (h.locality_count + 1) * 4 < 2 ^ 64 by omega)]
  dsimp only
  rw [if_pos hb]

theorem expected_public_space_offsets_offset_ok (h : Header) (n : Nat)
    (hb : h.locality_data_offset + n < 2 ^ 64) :
    h.expected_public_space_offsets_offset n =
      Except.ok (h.locality_data_offset + n) := by
  unfold Header.expected_public_space_offsets_offset
  rw [if_pos hb]

theorem expected_public_space_data_offset_ok (h : Header)
    (hb : h.public_space_offsets_offset + (h.public_space_count + 1) * 4 < 2 ^ 64) :
    h.expected_public_space_data_offset =
      Except.ok (h.public_space_offsets_offset + (h.public_space_count + 1) * 4) := by
  unfold Header.expected_public_space_data_offset Header.public_space_offsets_len
  rw [if_pos (show (h.public_space_count + 1) * 4 < 2 ^ 64 by omega)]
  dsimp only
  rw [if_pos hb]

theorem expected_ranges_offset_ok (h : Header) (n : Nat)
    (hb : h.public_space_data_offset + n < 2 ^ 64) :
    h.expected_ranges_offset n = Except.ok (h.public_space_data_offset + n) := by
  unfold Header.expected_ranges_offset
  rw [if_pos hb]

theorem decode_names_encoded (names : List (List Nat)) (hne : names ≠ [])
    (hvalid : ∀ n ∈ names, utf8Valid n = true)
    (hlt : (names.map List.length).sum < 2 ^ 32) :
    decode_names (0 :: offsValsFrom 0 names) names.flatten = Except.ok names := by
  unfold decode_names
  rw [if_neg (by
    simp only [List.length_cons, offsValsFrom_length]
    have := List.length_pos.mpr hne
    omega)]
  exact decode_names_go_flatten names 0 names.flatten (by simp)
    (by simp [List.length_flatten]) (by omega) hvalid

theorem expected_locality_data_offset_mk (lc pc rc o1 o2 o3 o4 o5 : Nat)
    (hb : o1 + (lc + 1) * 4 < 2 ^ 64) :
    (⟨lc, pc, rc, o1, o2, o3, o4, o5⟩ : Header).expected_locality_data_offset =
      Except.ok (o1 + (lc + 1) * 4) :=
  expected_locality_data_offset_ok ⟨lc, pc, rc, o1, o2, o3, o4, o5⟩ hb

theorem expected_public_space_offsets_offset_mk (lc pc rc o1 o2 o3 o4 o5 n : Nat)
    (hb : o2 + n < 2 ^ 64) :
    (⟨lc, pc, rc, o1, o2, o3, o4, o5⟩ : Header).expected_public_space_offsets_offset n =
      Except.ok (o2 + n) :=
  expected_public_space_offsets_offset_ok ⟨lc, pc, rc, o1, o2, o3, o4, o5⟩ n hb

theorem expected_public_space_data_offset_mk (lc pc rc o1 o2 o3 o4 o5 : Nat)
    (hb : o3 + (pc + 1) * 4 < 2 ^ 64) :
    (⟨lc, pc, rc, o1, o2, o3, o4, o5⟩ : Header).expected_public_space_data_offset =
      Except.ok (o3 + (pc + 1) * 4) :=
  expected_public_space_data_offset_ok ⟨lc, pc, rc, o1, o2, o3, o4, o5⟩ hb

theorem expected_ranges_offset_mk (lc pc rc o1 o2 o3 o4 o5 n : Nat)
    (hb : o4 + n < 2 ^ 64) :
    (⟨lc, pc, rc, o1, o2, o3, o4, o5⟩ : Header).expected_ranges_offset n =
      Except.ok (o4 + n) :=
  expected_ranges_offset_ok ⟨lc, pc, rc, o1, o2, o3, o4, o5⟩ n hb

/-- The core round-trip computation: the byte stream `write_database`
produces for well-formed components parses back with `from_reader`. -/
theorem from_reader_encoded_parts
    (locs pubs : List (List Nat)) (rngs : List NumberRange)
    (hlocs : locs ≠ []) (hpubs : pubs ≠ [])
    (hnlocs : ∀ n ∈ locs, utf8Valid n = true)
    (hnpubs : ∀ n ∈ pubs, utf8Valid n = true)
    (hr : ∀ r ∈ rngs, RangeWF r)
    (hR : rngs.length < 2 ^ 32)
    (hbound : 36 + (locs.length + 1) * 4 + (locs.map List.length).sum +
        ((pubs.length + 1) * 4 + (pubs.map List.length).sum) < 2 ^ 32) :
    Database.from_reader
        (Database.write_database ⟨locs, pubs, rngs⟩ locs.length pubs.length
          rngs.length) =
      Except.ok ⟨locs, pubs, rngs⟩ := by
  have hL32 : locs.length < 2 ^ 32 := by omega
  have hP32 : pubs.length < 2 ^ 32 := by omega
  simp only [Database.write_database]
  simp only [DATABASE_HEADER_SIZE]
  rw [Nat.mod_eq_of_lt (show (36 : Nat) < 2 ^ 32 by norm_num)]
  rw [Nat.mod_eq_of_lt (show 36 + (locs.length + 1) * 4 < 2 ^ 32 by omega)]
  rw [Nat.mod_eq_of_lt (show 36 + (locs.length + 1) * 4 +
    (locs.map List.length).sum < 2 ^ 32 by omega)]
  rw [Nat.mod_eq_of_lt (show 36 + (locs.length + 1) * 4 +
    (locs.map List.length).sum + (pubs.length + 1) * 4 < 2 ^ 32 by omega)]
  rw [Nat.mod_eq_of_lt (show 36 + (locs.length + 1) * 4 +
    (locs.map List.length).sum + (pubs.length + 1) * 4 +
    (pubs.map List.length).sum < 2 ^ 32 by omega)]
  unfold Database.from_reader
  simp only [List.append_assoc]
  rw [from_readerM_encoded locs.length pubs.length rngs.length _ _ _ _ _ _
    hL32 hP32 hR rfl (by norm_num) (by omega) (by omega) (by omega) (by omega)]
  dsimp only
  rw [read_offsets_offsetsBytes]
  dsimp only
  rw [validate_offsets_list_vals locs (by omega)]
  dsimp only
  rw [expected_locality_data_offset_mk _ _ _ _ _ _ _ _ (by omega)]
  dsimp only
  rw [if_neg (by omega)]
  unfold read_bytes
  rw [readExactR_exact _ locs.flatten _ (by simp [List.length_flatten])]
  dsimp only
  rw [decode_names_encoded locs hlocs hnlocs (by omega)]
  dsimp only
  rw [expected_public_space_offsets_offset_mk _ _ _ _ _ _ _ _ _ (by omega)]
  dsimp only
  rw [if_neg (by omega)]
  rw [read_offsets_offsetsBytes]
  dsimp only
  rw [validate_offsets_list_vals pubs (by omega)]
  dsimp only
  rw [expected_public_space_data_offset_mk _ _ _ _ _ _ _ _ (by omega)]
  dsimp only
  rw [if_neg (by omega)]
  rw [readExactR_exact _ pubs.flatten _ (by simp [List.length_flatten])]
  dsimp only
  rw [decode_names_encoded pubs hpubs hnpubs (by omega)]
  dsimp only
  rw [expected_ranges_offset_mk _ _ _ _ _ _ _ _ _ (by omega)]
  dsimp only
  rw [if_neg (by omega)]
  rw [read_ranges_encoded_nil rngs hr]

/-- C3 (amended): for any database satisfying the build invariants that
has at least one locality and at least one public space, encoding with
`write_database` and decoding with `Database::from_reader` returns
exactly the original database: `localities`, `public_spaces` and every
field of every range are element-wise equal.  (The nonemptiness proviso
is required: `decode_names` rejects an offsets table with fewer than two
entries, so a database with an empty locality or public-space list does
not round-trip.) -/
theorem write_then_read (db : Database) (hwf : DatabaseWF db)
    (hL : db.localities ≠ []) (hP : db.public_spaces ≠ []) :
    Database.from_reader
        (db.write_database db.localities.length db.public_spaces.length
          db.ranges.length) =
      Except.ok db := by
  obtain ⟨locs, pubs, rngs⟩ := db
  simp only [DatabaseWF] at hwf
  obtain ⟨-, -, -, hR, hnl, hnp, hr, -, -, -, -, hbound⟩ := hwf
  exact from_reader_encoded_parts locs pubs rngs hL hP
    (fun n hn => (hnl n hn).2) (fun n hn => (hnp n hn).2) hr hR (by omega)

theorem write_then_read_witness :
    DatabaseWF ⟨[[65]], [[66]], [⟨1, 2, 3, 0, 0⟩]⟩ ∧
      Database.from_reader
          ((⟨[[65]], [[66]], [⟨1, 2, 3, 0, 0⟩]⟩ : Database).write_database 1 1 1) =
        Except.ok ⟨[[65]], [[66]], [⟨1, 2, 3, 0, 0⟩]⟩ :=
  ⟨by decide,
    write_then_read ⟨[[65]], [[66]], [⟨1, 2, 3, 0, 0⟩]⟩ (by decide) (by decide)
      (by decide)⟩

/-- C3 counterexample: the empty database satisfies every build
invariant, yet decoding its encoding fails with `InvalidLayout`, because
`decode_names` requires at least two offset-table entries. -/
theorem round_trip_empty_fails :
    DatabaseWF ⟨[], [], []⟩ ∧
      Database.from_reader ((⟨[], [], []⟩ : Database).write_database 0 0 0) =
        Except.error DatabaseError.InvalidLayout :=
  ⟨by decide, by rfl⟩

/-! ### C2/C4: inversion lemmas for the two loaders -/

theorem readExactR_ok_inv {n : Nat} {bs p rest : List Nat}
    (h : readExactR n bs = Except.ok (p, rest)) :
    p = bs.take n ∧ rest = bs.drop n ∧ n ≤ bs.length := by
  unfold readExactR at h
  split at h
  · obtain ⟨h1, h2⟩ := Prod.mk.injEq .. ▸ (Except.ok.injEq .. ▸ h)
    exact ⟨h1.symm, h2.symm, by assumption⟩
  · exact absurd h (by simp)

theorem read_u32_reader_ok_inv {bs : List Nat} {v : Nat} {rest : List Nat}
    (h : read_u32_reader bs = Except.ok (v, rest)) :
    v = leVal (bs.take 4) ∧ rest = bs.drop 4 ∧ 4 ≤ bs.length := by
  unfold read_u32_reader at h
  split at h
  · exact absurd h (by simp)
  · rename_i p heq
    obtain ⟨h1, h2, h3⟩ := readExactR_ok_inv heq
    obtain ⟨hv, hr⟩ := Prod.mk.injEq .. ▸ (Except.ok.injEq .. ▸ h)
    exact ⟨hv ▸ h1 ▸ rfl, hr ▸ h2, h3⟩

theorem read_u16_reader_ok_inv {bs : List Nat} {v : Nat} {rest : List Nat}
    (h : read_u16_reader bs = Except.ok (v, rest)) :
    v = leVal (bs.take 2) ∧ rest = bs.drop 2 ∧ 2 ≤ bs.length := by
  unfold read_u16_reader at h
  split at h
  · exact absurd h (by simp)
  · rename_i p heq
    obtain ⟨h1, h2, h3⟩ := readExactR_ok_inv heq
    obtain ⟨hv, hr⟩ := Prod.mk.injEq .. ▸ (Except.ok.injEq .. ▸ h)
    exact ⟨hv ▸ h1 ▸ rfl, hr ▸ h2, h3⟩

/-- Inverting a successful `Header::from_reader`: every field is the
little-endian value of its 4-byte slice, the offsets base is 36, and the
remaining stream starts at byte 36. -/
theorem from_readerM_ok_inv {bs : List Nat} {h : Header} {rest : List Nat}
    (hok : Header.from_readerM bs = Except.ok (h, rest)) :
    h = ⟨leVal ((bs.drop 4).take 4), leVal ((bs.drop 8).take 4),
        leVal ((bs.drop 12).take 4), leVal ((bs.drop 16).take 4),
        leVal ((bs.drop 20).take 4), leVal ((bs.drop 24).take 4),
        leVal ((bs.drop 28).take 4), leVal ((bs.drop 32).take 4)⟩ ∧
      h.locality_offsets_offset = 36 ∧ rest = bs.drop 36 ∧ 36 ≤ bs.length := by
  unfold Header.from_readerM at hok
  split at hok
  · exact absurd hok (by simp)
  next p r0 hm =>
    obtain ⟨-, hr0, hlen0⟩ := readExactR_ok_inv hm
    split at hok
    · exact absurd hok (by simp)
    · split at hok
      · exact absurd hok (by simp)
      next v1 r1 h1 =>
        obtain ⟨hv1, hr1, hlen1⟩ := read_u32_reader_ok_inv h1
        split at hok
        · exact absurd hok (by simp)
        next v2 r2 h2 =>
          obtain ⟨hv2, hr2, hlen2⟩ := read_u32_reader_ok_inv h2
          split at hok
          · exact absurd hok (by simp)
          next v3 r3 h3 =>
            obtain ⟨hv3, hr3, hlen3⟩ := read_u32_reader_ok_inv h3
            split at hok
            · exact absurd hok (by simp)
            next v4 r4 h4 =>
              obtain ⟨hv4, hr4, hlen4⟩ := read_u32_reader_ok_inv h4
              split at hok
              · exact absurd hok (by simp)
              next v5 r5 h5 =>
                obtain ⟨hv5, hr5, hlen5⟩ := read_u32_reader_ok_inv h5
                split at hok
                · exact absurd hok (by simp)
                next v6 r6 h6 =>
                  obtain ⟨hv6, hr6, hlen6⟩ := read_u32_reader_ok_inv h6
                  split at hok
                  · exact absurd hok (by simp)
                  next v7 r7 h7 =>
                    obtain ⟨hv7, hr7, hlen7⟩ := read_u32_reader_ok_inv h7
                    split at hok
                    · exact absurd hok (by simp)
                    next v8 r8 h8 =>
                      obtain ⟨hv8, hr8, hlen8⟩ := read_u32_reader_ok_inv h8
                      dsimp only at hok
                      split at hok
                      · exact absurd hok (by simp)
                      next hvb =>
                        obtain ⟨hh, hr⟩ :=
                          Prod.mk.injEq .. ▸ (Except.ok.injEq .. ▸ hok)
                        subst hh hr
                        subst hv1 hv2 hv3 hv4 hv5 hv6 hv7 hv8
                        subst hr0 hr1 hr2 hr3 hr4 hr5 hr6 hr7 hr8
                        refine ⟨by simp [List.drop_drop], ?_, ?_, ?_⟩
                        · unfold Header.validate_base at hvb
                          split at hvb
                          · exact absurd hvb (by simp)
                          next hne =>
                            simpa [DATABASE_HEADER_SIZE] using not_ne_iff.mp hne
                        · simp [List.drop_drop]
                        · simp only [List.drop_drop, List.length_drop] at hlen8
                          omega
/-- Inverting a successful `read_offsets`: `count` values, each the
little-endian `u32` at its slot. -/
theorem read_offsets_ok_inv :
    ∀ {count : Nat} {bs vs rest : List Nat},
      read_offsets bs count = Except.ok (vs, rest) →
      vs.length = count ∧ 4 * count ≤ bs.length ∧ rest = bs.drop (4 * count) ∧
        ∀ i < count, vs.get? i = some (leVal ((bs.drop (4 * i)).take 4)) := by
  intro count
  induction count with
  | zero =>
    intro bs vs rest h
    unfold read_offsets at h
    obtain ⟨hv, hr⟩ := Prod.mk.injEq .. ▸ (Except.ok.injEq .. ▸ h)
    subst hv hr
    simp
  | succ n ih =>
    intro bs vs rest h
    unfold read_offsets at h
    split at h
    · exact absurd h (by simp)
    next v r1 hread =>
      obtain ⟨hv, hr1, hlen1⟩ := read_u32_reader_ok_inv hread
      split at h
      · exact absurd h (by simp)
      next vs2 rest2 hrec =>
        obtain ⟨hlen, hble, hrest, hitems⟩ := ih hrec
        obtain ⟨hvs, hrest2⟩ := Prod.mk.injEq .. ▸ (Except.ok.injEq .. ▸ h)
        subst hvs hrest2 hv hr1
        refine ⟨by simp [hlen], ?_, ?_, ?_⟩
        · simp only [List.length_drop] at hble
          omega
        · rw [hrest, List.drop_drop]
          congr 1
          omega
        · intro i hi
          match i with
          | 0 => simp
          | j + 1 =>
            have := hitems j (by omega)
            simpa [List.drop_drop, Nat.mul_add, Nat.add_comm] using this
theorem validate_offsets_go_le {l : List Nat} :
    ∀ {prev res : Nat}, validate_offsets_go prev l = Except.ok res →
      prev ≤ res ∧ ∀ v ∈ l, v ≤ res := by
  induction l with
  | nil =>
    intro prev res h
    unfold validate_offsets_go at h
    obtain h := Except.ok.injEq .. ▸ h
    subst h
    simp
  | cons v rest ih =>
    intro prev res h
    unfold validate_offsets_go at h
    split at h
    · exact absurd h (by simp)
    next hge =>
      obtain ⟨h1, h2⟩ := ih h
      refine ⟨by omega, ?_⟩
      intro w hw
      rcases List.mem_cons.mp hw with hw | hw
      · omega
      · exact h2 w hw

theorem validate_offsets_list_ok_inv {offs : List Nat} {res : Nat}
    (h : validate_offsets_list offs = Except.ok res) :
    offs.get? 0 = some 0 ∧ ∀ v ∈ offs, v ≤ res := by
  cases offs with
  | nil => exact absurd h (by simp [validate_offsets_list])
  | cons first rest =>
    simp only [validate_offsets_list] at h
    split at h
    · exact absurd h (by simp)
    next hne =>
      have h0 : first = 0 := not_ne_iff.mp hne
      subst h0
      obtain ⟨-, hall⟩ := validate_offsets_go_le h
      refine ⟨rfl, ?_⟩
      intro w hw
      rcases List.mem_cons.mp hw with hw | hw
      · omega
      · exact hall w hw
/-- Inverting a successful `decode_names` walk: names are the data
slices at consecutive offset pairs, in bounds and valid UTF-8. -/
theorem decode_names_go_ok_inv :
    ∀ {offs : List Nat} {data : List Nat} {names : List (List Nat)},
      decode_names_go data offs = Except.ok names →
      names.length + 1 = max offs.length 1 ∧
        ∀ i, i + 1 < offs.length →
          ∃ a b, offs.get? i = some a ∧ offs.get? (i + 1) = some b ∧
            a ≤ b ∧ b ≤ data.length ∧
            names.get? i = some ((data.drop a).take (b - a)) ∧
            utf8Valid ((data.drop a).take (b - a)) = true := by
  intro offs
  induction offs with
  | nil =>
    intro data names h
    simp only [decode_names_go] at h
    obtain h := Except.ok.injEq .. ▸ h
    subst h
    simp
  | cons a tl ih =>
    intro data names h
    cases tl with
    | nil =>
      simp only [decode_names_go] at h
      obtain h := Except.ok.injEq .. ▸ h
      subst h
      simp
    | cons b rest =>
      simp only [decode_names_go] at h
      split at h
      · exact absurd h (by simp)
      next hok =>
        split at h
        case isFalse => exact absurd h (by simp)
        case isTrue hutf =>
          split at h
          · exact absurd h (by simp)
          next names2 hrec =>
            obtain ⟨hlen, hitems⟩ := ih hrec
            obtain hnames := Except.ok.injEq .. ▸ h
            subst hnames
            push_neg at hok
            refine ⟨by simp at hlen ⊢; omega, ?_⟩
            intro i hi
            match i with
            | 0 =>
              exact ⟨a, b, rfl, rfl, by omega, by omega, by simp, hutf⟩
            | j + 1 =>
              have hj : j + 1 < (b :: rest).length := by
                simp only [List.length_cons] at hi ⊢
                omega
              have := hitems j hj
              simpa using this
/-- A range record as the view reads it from absolute position `o`. -/
def rangeOfBytesAt (bs : List Nat) (o : Nat) : NumberRange :=
  ⟨leVal ((bs.drop o).take 4), leVal ((bs.drop (o + 4)).take 4),
    leVal ((bs.drop (o + 8)).take 2), leVal ((bs.drop (o + 10)).take 4),
    leVal ((bs.drop (o + 14)).take 2)⟩

theorem rangeOfBytesAt_drop (bs : List Nat) (k o : Nat) :
    rangeOfBytesAt (bs.drop k) o = rangeOfBytesAt bs (k + o) := by
  simp only [rangeOfBytesAt, List.drop_drop, Nat.add_assoc]

/-- Inverting a successful `read_ranges`: `count` records of 16 bytes,
each field read little-endian at its slot. -/
theorem read_ranges_ok_inv :
    ∀ {count : Nat} {bs : List Nat} {rs : List NumberRange} {rest : List Nat},
      read_ranges bs count = Except.ok (rs, rest) →
      rs.length = count ∧ 16 * count ≤ bs.length ∧
        ∀ i < count, rs.get? i = some (rangeOfBytesAt bs (16 * i)) := by
  intro count
  induction count with
  | zero =>
    intro bs rs rest h
    unfold read_ranges at h
    obtain ⟨hv, hr⟩ := Prod.mk.injEq .. ▸ (Except.ok.injEq .. ▸ h)
    subst hv
    simp
  | succ n ih =>
    intro bs rs rest h
    unfold read_ranges at h
    split at h
    · exact absurd h (by simp)
    next pc r1 h1 =>
      obtain ⟨hpc, hr1, hlen1⟩ := read_u32_reader_ok_inv h1
      split at h
      · exact absurd h (by simp)
      next st r2 h2 =>
        obtain ⟨hst, hr2, hlen2⟩ := read_u32_reader_ok_inv h2
        split at h
        · exact absurd h (by simp)
        next ln r3 h3 =>
          obtain ⟨hln, hr3, hlen3⟩ := read_u16_reader_ok_inv h3
          split at h
          · exact absurd h (by simp)
          next ps r4 h4 =>
            obtain ⟨hps, hr4, hlen4⟩ := read_u32_reader_ok_inv h4
            split at h
            · exact absurd h (by simp)
            next li r5 h5 =>
              obtain ⟨hli, hr5, hlen5⟩ := read_u16_reader_ok_inv h5
              split at h
              · exact absurd h (by simp)
              next rs2 rest2 hrec =>
                obtain ⟨hlen, hble, hitems⟩ := ih hrec
                obtain ⟨hrs, hrest⟩ := Prod.mk.injEq .. ▸ (Except.ok.injEq .. ▸ h)
                subst hrs hrest hpc hst hln hps hli
                subst hr1 hr2 hr3 hr4 hr5
                simp only [List.drop_drop, List.length_drop] at *
                refine ⟨by simp [hlen], by omega, ?_⟩
                intro i hi
                match i with
                | 0 =>
                  simp [rangeOfBytesAt, List.drop_drop]
                | j + 1 =>
                  have := hitems j (by omega)
                  rw [List.get?_cons_succ, this, rangeOfBytesAt_drop]
                  congr 2
                  omega
theorem slice_of_take (l : List Nat) (n a c : Nat) (h : a + c ≤ n) :
    ((l.take n).drop a).take c = (l.drop a).take c := by
  rw [List.drop_take, List.take_take]
  congr 1
  omega

/-- The view's `name_at` agrees pointwise with a name list decoded from
the same offsets table and data section. -/
theorem name_at_agree (bytes : List Nat) (obase dlen cnt : Nat)
    (offs : List Nat) (names : List (List Nat))
    (hoblen : obase + (cnt + 1) * 4 ≤ bytes.length)
    (hdlen_le : obase + (cnt + 1) * 4 + dlen ≤ bytes.length)
    (hb64 : obase + (cnt + 1) * 4 + dlen < 2 ^ 64)
    (hnames_len : names.length = cnt)
    (hoffs : ∀ i < cnt + 1, offs.get? i = some (leVal ((bytes.drop (obase + i * 4)).take 4)))
    (hvals : ∀ v ∈ offs, v ≤ dlen)
    (hitem : ∀ i < cnt, ∃ a b, offs.get? i = some a ∧ offs.get? (i + 1) = some b ∧
      a ≤ b ∧
      names.get? i = some ((bytes.drop (obase + (cnt + 1) * 4 + a)).take (b - a)) ∧
      utf8Valid ((bytes.drop (obase + (cnt + 1) * 4 + a)).take (b - a)) = true) :
    ∀ idx, DatabaseView.name_at bytes obase (obase + (cnt + 1) * 4)
        (obase + (cnt + 1) * 4 + dlen) idx cnt = names.get? idx := by
  intro idx
  by_cases hidx : idx < cnt
  · obtain ⟨a, b, ha, hb, hab, hname, hutf⟩ := hitem idx hidx
    have hadlen : a ≤ dlen := hvals a (List.get?_mem ha)
    have hbdlen : b ≤ dlen := hvals b (List.get?_mem hb)
    have hra : read_u32_bytes bytes (obase + idx * 4) = some a := by
      unfold read_u32_bytes
      rw [if_pos (by omega)]
      have h1 := hoffs idx (by omega)
      rw [ha] at h1
      rw [Option.some_inj.mp h1]
    have hrb : read_u32_bytes bytes (obase + (idx + 1) * 4) = some b := by
      unfold read_u32_bytes
      rw [if_pos (by omega)]
      have h1 := hoffs (idx + 1) (by omega)
      rw [hb] at h1
      rw [Option.some_inj.mp h1]
    unfold DatabaseView.name_at
    rw [if_neg (by omega)]
    rw [hra]
    dsimp only
    rw [hrb]
    dsimp only
    rw [if_neg (by omega), if_neg (by omega), if_neg (by omega), if_pos (by omega)]
    rw [show obase + (cnt + 1) * 4 + b - (obase + (cnt + 1) * 4 + a) = b - a by omega]
    rw [hutf]
    exact hname.symm
  · unfold DatabaseView.name_at
    rw [if_pos (by omega)]
    exact (List.get?_eq_none.mpr (by omega)).symm
/-- The view's range accessors agree with a decoded range list laid out
at `ranges_offset`. -/
theorem range_at_agree (bytes : List Nat) (v : DatabaseView) (rs : List NumberRange)
    (hro : ∀ i < rs.length, rs.get? i = some (rangeOfBytesAt bytes (v.ranges_offset + i * 16)))
    (h64b : v.ranges_offset + rs.length * 16 < 2 ^ 64)
    (hblen : v.ranges_offset + rs.length * 16 ≤ bytes.length) :
    ∀ i < rs.length, ∀ r, rs.get? i = some r →
      DatabaseView.range_at bytes v i =
        some (r.start, r.length, r.public_space_index, r.locality_index) ∧
      DatabaseView.range_postal_code bytes v i = some r.postal_code := by
  intro i hi r hr
  have hile : i * 16 + 16 ≤ rs.length * 16 := by nlinarith
  have hreq : r = rangeOfBytesAt bytes (v.ranges_offset + i * 16) := by
    have h2 := hro i hi
    rw [hr] at h2
    exact Option.some_inj.mp h2
  have hoff : DatabaseView.range_offset bytes v i = some (v.ranges_offset + i * 16) := by
    unfold DatabaseView.range_offset
    simp only [RANGE_RECORD_SIZE]
    rw [if_pos (by omega)]
    rw [if_pos (by omega)]
  have e0 : read_u32_bytes bytes (v.ranges_offset + i * 16) = some r.postal_code := by
    unfold read_u32_bytes
    rw [if_pos (by omega), hreq]
    rfl
  have e1 : read_u32_bytes bytes (v.ranges_offset + i * 16 + 4) = some r.start := by
    unfold read_u32_bytes
    rw [if_pos (by omega), hreq]
    rfl
  have e2 : read_u16_bytes bytes (v.ranges_offset + i * 16 + 8) = some r.length := by
    unfold read_u16_bytes
    rw [if_pos (by omega), hreq]
    rfl
  have e3 : read_u32_bytes bytes (v.ranges_offset + i * 16 + 10) =
      some r.public_space_index := by
    unfold read_u32_bytes
    rw [if_pos (by omega), hreq]
    rfl
  have e4 : read_u16_bytes bytes (v.ranges_offset + i * 16 + 14) =
      some r.locality_index := by
    unfold read_u16_bytes
    rw [if_pos (by omega), hreq]
    rfl
  constructor
  · unfold DatabaseView.range_at
    rw [hoff]
    dsimp only
    rw [e1]
    dsimp only
    rw [e2]
    dsimp only
    rw [e3]
    dsimp only
    rw [e4]
  · unfold DatabaseView.range_postal_code
    rw [hoff]
    dsimp only
    exact e0
theorem ppGo_le (pred : Nat → Bool) :
    ∀ fuel left right, left ≤ right → ppGo pred fuel left right ≤ right := by
  intro fuel
  induction fuel with
  | zero =>
    intro left right h
    exact h
  | succ n ih =>
    intro left right h
    simp only [ppGo]
    split
    next hlr =>
      split
      · exact ih _ _ (by omega)
      · exact Nat.le_trans (ih _ _ (by omega)) (by omega)
    next hlr => exact h

theorem ppGo_congr (p q : Nat → Bool) (bound : Nat)
    (hpq : ∀ i < bound, p i = q i) :
    ∀ fuel left right, right ≤ bound →
      ppGo p fuel left right = ppGo q fuel left right := by
  intro fuel
  induction fuel with
  | zero =>
    intro left right _
    rfl
  | succ n ih =>
    intro left right hrb
    simp only [ppGo]
    by_cases hlr : left < right
    · rw [if_pos hlr, if_pos hlr]
      rw [hpq (left + (right - left) / 2) (by omega)]
      split
      · exact ih _ _ hrb
      · exact ih _ _ (by omega)
    · rw [if_neg hlr, if_neg hlr]

/-- The two linear scans agree index-by-index when the view's range and
name accessors mirror the owned lists and no range end overflows. -/
theorem scan_agree (bytes : List Nat) (v : DatabaseView) (db : Database)
    (pc hn : Nat)
    (hRlen : db.ranges.length = v.range_count)
    (hrange : ∀ i < v.range_count, ∀ r, db.ranges.get? i = some r →
      DatabaseView.range_at bytes v i =
        some (r.start, r.length, r.public_space_index, r.locality_index))
    (hnov : ∀ r ∈ db.ranges, r.start + r.length < 2 ^ 32)
    (hloc : ∀ idx, DatabaseView.locality_name bytes v idx = db.localities.get? idx)
    (hps : ∀ idx, DatabaseView.public_space_name bytes v idx = db.public_spaces.get? idx) :
    ∀ n i, i + n ≤ v.range_count →
      viewScan bytes v pc hn i n = dbScan db hn i n := by
  intro n
  induction n with
  | zero =>
    intro i _
    rfl
  | succ m ih =>
    intro i hin
    have hi : i < v.range_count := by omega
    have hlt : i < db.ranges.length := by omega
    obtain ⟨r, hr⟩ : ∃ r, db.ranges.get? i = some r :=
      ⟨db.ranges.get ⟨i, hlt⟩, List.get?_eq_get hlt⟩
    have hva := hrange i hi r hr
    have hno : r.start + r.length < 2 ^ 32 := hnov r (List.get?_mem hr)
    simp only [viewScan, dbScan, hva, hr]
    rw [if_pos hno, if_pos hno]
    by_cases hinr : r.start ≤ hn ∧ hn ≤ r.start + r.length
    · rw [if_pos hinr, if_pos hinr]
      simp only [Database.public_space_name, Database.locality_name]
      rw [hps r.public_space_index]
      cases db.public_spaces.get? r.public_space_index with
      | none => rfl
      | some psn =>
        dsimp only
        rw [hloc r.locality_index]
    · rw [if_neg hinr, if_neg hinr]
      exact ih (i + 1) (by omega)
theorem expected_locality_data_offset_ok_inv {h : Header} {n : Nat}
    (he : h.expected_locality_data_offset = Except.ok n) :
    n = h.locality_offsets_offset + (h.locality_count + 1) * 4 ∧
      h.locality_offsets_offset + (h.locality_count + 1) * 4 < 2 ^ 64 := by
  unfold Header.expected_locality_data_offset Header.locality_offsets_len at he
  split at he
  · exact absurd he (by simp)
  next m hm =>
    split at hm
    next hlt =>
      obtain hmv := Except.ok.injEq .. ▸ hm
      subst hmv
      split at he
      next hb => exact ⟨(Except.ok.injEq .. ▸ he).symm, hb⟩
      · exact absurd he (by simp)
    · exact absurd hm (by simp)

theorem expected_public_space_offsets_offset_ok_inv {h : Header} {k n : Nat}
    (he : h.expected_public_space_offsets_offset k = Except.ok n) :
    n = h.locality_data_offset + k ∧ h.locality_data_offset + k < 2 ^ 64 := by
  unfold Header.expected_public_space_offsets_offset at he
  split at he
  next hb => exact ⟨(Except.ok.injEq .. ▸ he).symm, hb⟩
  · exact absurd he (by simp)

theorem expected_public_space_data_offset_ok_inv {h : Header} {n : Nat}
    (he : h.expected_public_space_data_offset = Except.ok n) :
    n = h.public_space_offsets_offset + (h.public_space_count + 1) * 4 ∧
      h.public_space_offsets_offset + (h.public_space_count + 1) * 4 < 2 ^ 64 := by
  unfold Header.expected_public_space_data_offset Header.public_space_offsets_len at he
  split at he
  · exact absurd he (by simp)
  next m hm =>
    split at hm
    next hlt =>
      obtain hmv := Except.ok.injEq .. ▸ hm
      subst hmv
      split at he
      next hb => exact ⟨(Except.ok.injEq .. ▸ he).symm, hb⟩
      · exact absurd he (by simp)
    · exact absurd hm (by simp)

theorem expected_ranges_offset_ok_inv {h : Header} {k n : Nat}
    (he : h.expected_ranges_offset k = Except.ok n) :
    n = h.public_space_data_offset + k ∧ h.public_space_data_offset + k < 2 ^ 64 := by
  unfold Header.expected_ranges_offset at he
  split at he
  next hb => exact ⟨(Except.ok.injEq .. ▸ he).symm, hb⟩
  · exact absurd he (by simp)
/-- Inverting a successful `DatabaseView::from_bytes`: the view is the
parsed header's geometry and the range section is fully in bounds. -/
theorem from_bytes_ok_facts {bytes : List Nat} {v : DatabaseView}
    (hview : DatabaseView.from_bytes bytes = Except.ok v) :
    ∃ header rest, Header.from_readerM bytes = Except.ok (header, rest) ∧
      v = ⟨header.locality_count, header.public_space_count, header.range_count,
        header.locality_offsets_offset, header.locality_data_offset,
        header.public_space_offsets_offset, header.public_space_offsets_offset,
        header.public_space_data_offset, header.ranges_offset, header.ranges_offset⟩ ∧
      header.ranges_offset + header.range_count * 16 < 2 ^ 64 ∧
      header.ranges_offset + header.range_count * 16 ≤ bytes.length := by
  unfold DatabaseView.from_bytes at hview
  split at hview
  · exact Except.noConfusion hview
  next header hh =>
    unfold Header.from_bytes at hh
    split at hh
    · exact Except.noConfusion hh
    next hlen =>
      split at hh
      · exact Except.noConfusion hh
      next hp rest hfr =>
        obtain hhv := Except.ok.injEq .. ▸ hh
        subst hhv
        refine ⟨hp, rest, hfr, ?_⟩
        split at hview
        · exact Except.noConfusion hview
        next lol hlol =>
          by_cases c1 : hp.locality_offsets_offset + lol ≥ 2 ^ 64
          · rw [if_pos c1] at hview
            exact Except.noConfusion hview
          rw [if_neg c1] at hview
          split at hview
          · exact Except.noConfusion hview
          next eldo heldo =>
            by_cases c2 : hp.locality_offsets_offset + lol > bytes.length ∨
                hp.locality_data_offset ≠ eldo
            · rw [if_pos c2] at hview
              exact Except.noConfusion hview
            rw [if_neg c2] at hview
            split at hview
            · exact Except.noConfusion hview
            next locLen hval1 =>
              by_cases c3 : locLen = 0 ∧ hp.locality_count ≠ 0
              · rw [if_pos c3] at hview
                exact Except.noConfusion hview
              rw [if_neg c3] at hview
              split at hview
              · exact Except.noConfusion hview
              next psoexp hpsoexp =>
                by_cases c4 : hp.public_space_offsets_offset ≠ psoexp
                · rw [if_pos c4] at hview
                  exact Except.noConfusion hview
                rw [if_neg c4] at hview
                split at hview
                · exact Except.noConfusion hview
                next psol hpsol =>
                  by_cases c5 : hp.public_space_offsets_offset + psol ≥ 2 ^ 64
                  · rw [if_pos c5] at hview
                    exact Except.noConfusion hview
                  rw [if_neg c5] at hview
                  split at hview
                  · exact Except.noConfusion hview
                  next epsd hepsd =>
                    by_cases c6 : hp.public_space_offsets_offset + psol > bytes.length ∨
                        hp.public_space_data_offset ≠ epsd
                    · rw [if_pos c6] at hview
                      exact Except.noConfusion hview
                    rw [if_neg c6] at hview
                    split at hview
                    · exact Except.noConfusion hview
                    next psLen hval2 =>
                      by_cases c7 : psLen = 0 ∧ hp.public_space_count ≠ 0
                      · rw [if_pos c7] at hview
                        exact Except.noConfusion hview
                      rw [if_neg c7] at hview
                      split at hview
                      · exact Except.noConfusion hview
                      next roexp hroexp =>
                        by_cases c8 : hp.ranges_offset ≠ roexp
                        · rw [if_pos c8] at hview
                          exact Except.noConfusion hview
                        rw [if_neg c8] at hview
                        by_cases c9 : hp.range_count * RANGE_RECORD_SIZE ≥ 2 ^ 64
                        · rw [if_pos c9] at hview
                          exact Except.noConfusion hview
                        rw [if_neg c9] at hview
                        by_cases c10 : hp.ranges_offset +
                            hp.range_count * RANGE_RECORD_SIZE ≥ 2 ^ 64
                        · rw [if_pos c10] at hview
                          exact Except.noConfusion hview
                        rw [if_neg c10] at hview
                        by_cases c11 : hp.ranges_offset +
                            hp.range_count * RANGE_RECORD_SIZE > bytes.length
                        · rw [if_pos c11] at hview
                          exact Except.noConfusion hview
                        rw [if_neg c11] at hview
                        obtain hv := Except.ok.injEq .. ▸ hview
                        subst hv
                        refine ⟨rfl, ?_, ?_⟩
                        · simp only [RANGE_RECORD_SIZE] at c10
                          omega
                        · simp only [RANGE_RECORD_SIZE] at c11
                          omega
/-- Bridging one name section of the owned decoder to the view: the
offsets the owned decoder validated and decoded drive `name_at` to the
same names. -/
theorem section_names_agree (bytes : List Nat) (obase cnt dlen : Nat)
    (offs : List Nat) (names : List (List Nat))
    (hoblen : obase + (cnt + 1) * 4 ≤ bytes.length)
    (hofflen : offs.length = cnt + 1)
    (hoffvals : ∀ i < cnt + 1,
      offs.get? i = some (leVal ((bytes.drop (obase + i * 4)).take 4)))
    (hvalid : validate_offsets_list offs = Except.ok dlen)
    (hdec : decode_names offs ((bytes.drop (obase + (cnt + 1) * 4)).take dlen) =
      Except.ok names)
    (hdlen_le : obase + (cnt + 1) * 4 + dlen ≤ bytes.length)
    (hb64 : obase + (cnt + 1) * 4 + dlen < 2 ^ 64) :
    names.length = cnt ∧
      ∀ idx, DatabaseView.name_at bytes obase (obase + (cnt + 1) * 4)
          (obase + (cnt + 1) * 4 + dlen) idx cnt = names.get? idx := by
  obtain ⟨-, hall⟩ := validate_offsets_list_ok_inv hvalid
  unfold decode_names at hdec
  split at hdec
  · exact Except.noConfusion hdec
  next hge2 =>
    obtain ⟨hlen, hitems⟩ := decode_names_go_ok_inv hdec
    rw [hofflen] at hlen hitems hge2
    have hdata_len : ((bytes.drop (obase + (cnt + 1) * 4)).take dlen).length = dlen := by
      simp only [List.length_take, List.length_drop]
      omega
    have hnlen : names.length = cnt := by omega
    refine ⟨hnlen, ?_⟩
    refine name_at_agree bytes obase dlen cnt offs names hoblen hdlen_le hb64 hnlen
      (fun i hi => hoffvals i hi) hall ?_
    intro i hi
    obtain ⟨a, b, ha, hb, hab, hble, hname, hutf⟩ := hitems i (by omega)
    have hbd : b ≤ dlen := by omega
    have hslice : (((bytes.drop (obase + (cnt + 1) * 4)).take dlen).drop a).take (b - a) =
        (bytes.drop (obase + (cnt + 1) * 4 + a)).take (b - a) := by
      rw [slice_of_take _ _ _ _ (by omega), List.drop_drop]
    rw [hslice] at hname hutf
    exact ⟨a, b, ha, hb, hab, hname, hutf⟩
/-- Inverting a successful `Database::from_reader`: section geometry,
list lengths, pointwise `name_at` agreement for both name sections, and
the byte layout of every range record. -/
theorem from_reader_ok_facts {bytes : List Nat} {db : Database}
    (hown : Database.from_reader bytes = Except.ok db) :
    ∃ header locLen psLen,
      Header.from_readerM bytes = Except.ok (header, bytes.drop 36) ∧
      header.locality_offsets_offset = 36 ∧
      header.locality_data_offset = 36 + (header.locality_count + 1) * 4 ∧
      header.public_space_offsets_offset = header.locality_data_offset + locLen ∧
      header.public_space_data_offset =
        header.public_space_offsets_offset + (header.public_space_count + 1) * 4 ∧
      header.ranges_offset = header.public_space_data_offset + psLen ∧
      db.localities.length = header.locality_count ∧
      db.public_spaces.length = header.public_space_count ∧
      db.ranges.length = header.range_count ∧
      (∀ idx, DatabaseView.name_at bytes 36 (36 + (header.locality_count + 1) * 4)
          (36 + (header.locality_count + 1) * 4 + locLen) idx header.locality_count =
        db.localities.get? idx) ∧
      (∀ idx, DatabaseView.name_at bytes header.public_space_offsets_offset
          (header.public_space_offsets_offset + (header.public_space_count + 1) * 4)
          (header.public_space_offsets_offset + (header.public_space_count + 1) * 4 + psLen)
          idx header.public_space_count =
        db.public_spaces.get? idx) ∧
      (∀ i < header.range_count,
        db.ranges.get? i = some (rangeOfBytesAt bytes (header.ranges_offset + i * 16))) := by
  unfold Database.from_reader at hown
  split at hown
  · exact Except.noConfusion hown
  next hp r0 hfr =>
    obtain ⟨-, hlo, hr0, h36⟩ := from_readerM_ok_inv hfr
    split at hown
    · exact Except.noConfusion hown
    next locOffs r1 hlocOffs =>
      obtain ⟨hlolen, hlo4len, hr1, hlovals⟩ := read_offsets_ok_inv hlocOffs
      split at hown
      · exact Except.noConfusion hown
      next locLen hlval =>
        split at hown
        · exact Except.noConfusion hown
        next eldo heldo =>
          obtain ⟨heldov, heldob⟩ := expected_locality_data_offset_ok_inv heldo
          by_cases c1 : hp.locality_data_offset ≠ eldo
          · rw [if_pos c1] at hown
            exact Except.noConfusion hown
          rw [if_neg c1] at hown
          have hldo : hp.locality_data_offset = 36 + (hp.locality_count + 1) * 4 := by
            rw [not_ne_iff.mp c1, heldov, hlo]
          split at hown
          · exact Except.noConfusion hown
          next locData r2 hlocData =>
            unfold read_bytes at hlocData
            obtain ⟨hlocDataEq, hr2, hlocLenLe⟩ := readExactR_ok_inv hlocData
            split at hown
            · exact Except.noConfusion hown
            next locNames hlocDec =>
              split at hown
              · exact Except.noConfusion hown
              next epso hepso =>
                obtain ⟨hepsov, hepsob⟩ := expected_public_space_offsets_offset_ok_inv hepso
                by_cases c2 : hp.public_space_offsets_offset ≠ epso
                · rw [if_pos c2] at hown
                  exact Except.noConfusion hown
                rw [if_neg c2] at hown
                have hpso : hp.public_space_offsets_offset =
                    36 + (hp.locality_count + 1) * 4 + locLen := by
                  rw [not_ne_iff.mp c2, hepsov, hldo]
                split at hown
                · exact Except.noConfusion hown
                next psOffs r3 hpsOffs =>
                  obtain ⟨hpslen, hps4len, hr3, hpsvals⟩ := read_offsets_ok_inv hpsOffs
                  split at hown
                  · exact Except.noConfusion hown
                  next psLen hpsval =>
                    split at hown
                    · exact Except.noConfusion hown
                    next epsd hepsd =>
                      obtain ⟨hepsdv, hepsdb⟩ := expected_public_space_data_offset_ok_inv hepsd
                      by_cases c3 : hp.public_space_data_offset ≠ epsd
                      · rw [if_pos c3] at hown
                        exact Except.noConfusion hown
                      rw [if_neg c3] at hown
                      have hpsd : hp.public_space_data_offset =
                          hp.public_space_offsets_offset +
                            (hp.public_space_count + 1) * 4 := by
                        rw [not_ne_iff.mp c3, hepsdv]
                      split at hown
                      · exact Except.noConfusion hown
                      next psData r4 hpsData =>
                        unfold read_bytes at hpsData
                        obtain ⟨hpsDataEq, hr4, hpsLenLe⟩ := readExactR_ok_inv hpsData
                        split at hown
                        · exact Except.noConfusion hown
                        next psNames hpsDec =>
                          split at hown
                          · exact Except.noConfusion hown
                          next ero hero =>
                            obtain ⟨herov, herob⟩ := expected_ranges_offset_ok_inv hero
                            by_cases c4 : hp.ranges_offset ≠ ero
                            · rw [if_pos c4] at hown
                              exact Except.noConfusion hown
                            rw [if_neg c4] at hown
                            have hro : hp.ranges_offset =
                                hp.public_space_data_offset + psLen := by
                              rw [not_ne_iff.mp c4, herov]
                            split at hown
                            · exact Except.noConfusion hown
                            next rangesList rrest hranges =>
                              obtain ⟨hrlen, hr16, hritems⟩ := read_ranges_ok_inv hranges
                              obtain hdb := Except.ok.injEq .. ▸ hown
                              subst hdb
                              -- positions
                              have hr0len : r0.length = bytes.length - 36 := by
                                rw [hr0]
                                simp
                              have hr1c : r1 = bytes.drop (36 + (hp.locality_count + 1) * 4) := by
                                rw [hr1, hr0, List.drop_drop, Nat.mul_comm 4 (hp.locality_count + 1)]
                              have hr1len : r1.length =
                                  bytes.length - (36 + (hp.locality_count + 1) * 4) := by
                                rw [hr1c]
                                simp
                              have hoblen1 : 36 + (hp.locality_count + 1) * 4 ≤ bytes.length := by
                                omega
                              have hdlenle1 : 36 + (hp.locality_count + 1) * 4 + locLen ≤
                                  bytes.length := by
                                omega
                              have hb641 : 36 + (hp.locality_count + 1) * 4 + locLen < 2 ^ 64 := by
                                omega
                              have hlov : ∀ i < hp.locality_count + 1,
                                  locOffs.get? i =
                                    some (leVal ((bytes.drop (36 + i * 4)).take 4)) := by
                                intro i hi
                                have hv := hlovals i hi
                                rw [hr0, List.drop_drop, Nat.mul_comm 4 i] at hv
                                exact hv
                              have hlocDataC : locData =
                                  (bytes.drop (36 + (hp.locality_count + 1) * 4)).take locLen := by
                                rw [hlocDataEq, hr1c]
                              rw [hlocDataC] at hlocDec
                              obtain ⟨hlocNlen, hlocAgree⟩ := section_names_agree bytes 36
                                hp.locality_count locLen locOffs locNames
                                (by omega) hlolen hlov hlval hlocDec (by omega) (by omega)
                              -- public space section
                              have hr2c : r2 = bytes.drop hp.public_space_offsets_offset := by
                                rw [hpso, hr2, hr1c, List.drop_drop]
                              have hr2len : r2.length =
                                  bytes.length - hp.public_space_offsets_offset := by
                                rw [hr2c]
                                simp
                              have hpso_le : hp.public_space_offsets_offset +
                                  (hp.public_space_count + 1) * 4 ≤ bytes.length := by
                                omega
                              have hpsov : ∀ i < hp.public_space_count + 1,
                                  psOffs.get? i =
                                    some (leVal ((bytes.drop
                                      (hp.public_space_offsets_offset + i * 4)).take 4)) := by
                                intro i hi
                                have hv := hpsvals i hi
                                rw [hr2c, List.drop_drop, Nat.mul_comm 4 i] at hv
                                exact hv
                              have hr3c : r3 = bytes.drop (hp.public_space_offsets_offset +
                                  (hp.public_space_count + 1) * 4) := by
                                rw [hr3, hr2c, List.drop_drop,
                                  Nat.mul_comm 4 (hp.public_space_count + 1)]
                              have hr3len : r3.length = bytes.length -
                                  (hp.public_space_offsets_offset +
                                    (hp.public_space_count + 1) * 4) := by
                                rw [hr3c]
                                simp
                              have hpsDataC : psData =
                                  (bytes.drop (hp.public_space_offsets_offset +
                                    (hp.public_space_count + 1) * 4)).take psLen := by
                                rw [hpsDataEq, hr3c]
                              rw [hpsDataC] at hpsDec
                              have hb642 : hp.public_space_offsets_offset +
                                  (hp.public_space_count + 1) * 4 + psLen < 2 ^ 64 := by
                                omega
                              obtain ⟨hpsNlen, hpsAgree⟩ := section_names_agree bytes
                                hp.public_space_offsets_offset
                                hp.public_space_count psLen psOffs psNames
                                (by omega) hpslen hpsov hpsval hpsDec (by omega) hb642
                              -- ranges
                              have hr4c : r4 = bytes.drop hp.ranges_offset := by
                                rw [hro, hpsd, hr4, hr3c, List.drop_drop]
                              refine ⟨hp, locLen, psLen, ?_, hlo, hldo, hpso.trans (by rw [hldo]),
                                hpsd, hro, by simpa using hlocNlen, by simpa using hpsNlen,
                                by simpa using hrlen, ?_, ?_, ?_⟩
                              · rw [← hr0]
                                exact hfr
                              · intro idx
                                simpa using hlocAgree idx
                              · intro idx
                                simpa using hpsAgree idx
                              · intro i hi
                                have hv := hritems i hi
                                rw [hr4c, rangeOfBytesAt_drop, Nat.mul_comm 16 i] at hv
                                simpa using hv
/-- C2 (amended): on any byte stream that both loaders accept, and
whose decoded ranges all satisfy `start + length < 2 ^ 32` (so the
`checked_add` in the two scans never diverges), the zero-copy lookup and
the owned lookup agree on every postal code and house number. -/
theorem lookup_agreement (bytes : List Nat) (db : Database) (v : DatabaseView)
    (hown : Database.from_reader bytes = Except.ok db)
    (hview : DatabaseView.from_bytes bytes = Except.ok v)
    (hnov : ∀ r ∈ db.ranges, r.start + r.length < 2 ^ 32)
    (pcs : List Nat) (hn : Nat) :
    DatabaseView.lookup bytes v pcs hn = Database.lookup db pcs hn := by
  obtain ⟨hd1, locLen, psLen, hfr1, hlo, hldo, hpso, hpsd, hro, hLlen, hPlen, hRlen,
    hlocAgree, hpsAgree, hritems⟩ := from_reader_ok_facts hown
  obtain ⟨hd2, rest2, hfr2, hveq, h64b, hblen⟩ := from_bytes_ok_facts hview
  rw [hfr1] at hfr2
  obtain ⟨hdeq, -⟩ := Prod.mk.injEq .. ▸ (Except.ok.injEq .. ▸ hfr2)
  subst hdeq
  have hlocname : ∀ idx,
      DatabaseView.locality_name bytes v idx = db.localities.get? idx := by
    intro idx
    unfold DatabaseView.locality_name
    rw [hveq]
    dsimp only
    rw [hlo, hpso, hldo]
    exact hlocAgree idx
  have hpsname : ∀ idx,
      DatabaseView.public_space_name bytes v idx = db.public_spaces.get? idx := by
    intro idx
    unfold DatabaseView.public_space_name
    rw [hveq]
    dsimp only
    rw [hro, hpsd]
    exact hpsAgree idx
  have hroitems : ∀ i < db.ranges.length,
      db.ranges.get? i = some (rangeOfBytesAt bytes (v.ranges_offset + i * 16)) := by
    intro i hi
    rw [hveq]
    exact hritems i (by omega)
  have hcount : v.range_count = db.ranges.length := by
    rw [hveq]
    dsimp only
    omega
  have hrange_agree := range_at_agree bytes v db.ranges hroitems
    (by rw [hveq]; dsimp only; omega) (by rw [hveq]; dsimp only; omega)
  have hrange : ∀ i < v.range_count, ∀ r, db.ranges.get? i = some r →
      DatabaseView.range_at bytes v i =
        some (r.start, r.length, r.public_space_index, r.locality_index) :=
    fun i hi r hr => (hrange_agree i (hcount ▸ hi) r hr).1
  unfold DatabaseView.lookup Database.lookup
  cases hnorm : normalize_postalcode pcs with
  | none => rfl
  | some normalized =>
    dsimp only
    have hpred1 : ∀ i < db.ranges.length,
        (match DatabaseView.range_postal_code bytes v i with
          | none => true
          | some code => decide (code < encode_pc normalized)) =
        decide ((db.ranges.getD i ⟨0, 0, 0, 0, 0⟩).postal_code <
          encode_pc normalized) := by
      intro i hi
      obtain ⟨r, hr⟩ : ∃ r, db.ranges.get? i = some r := ⟨_, List.get?_eq_get hi⟩
      have h2 := (hrange_agree i hi r hr).2
      simp only [h2, List.getD_eq_getD_get?, hr, Option.getD_some]
    have hpred2 : ∀ i < db.ranges.length,
        (match DatabaseView.range_postal_code bytes v i with
          | none => true
          | some code => decide (code ≤ encode_pc normalized)) =
        decide ((db.ranges.getD i ⟨0, 0, 0, 0, 0⟩).postal_code ≤
          encode_pc normalized) := by
      intro i hi
      obtain ⟨r, hr⟩ : ∃ r, db.ranges.get? i = some r := ⟨_, List.get?_eq_get hi⟩
      have h2 := (hrange_agree i hi r hr).2
      simp only [h2, List.getD_eq_getD_get?, hr, Option.getD_some]
    have hs : partition_point_range v.range_count
        (fun idx => match DatabaseView.range_postal_code bytes v idx with
          | none => true
          | some code => decide (code < encode_pc normalized)) =
      partition_point_range db.ranges.length
        (fun idx => decide ((db.ranges.getD idx ⟨0, 0, 0, 0, 0⟩).postal_code <
          encode_pc normalized)) := by
      rw [hcount]
      unfold partition_point_range
      exact ppGo_congr _ _ db.ranges.length hpred1 db.ranges.length 0
        db.ranges.length le_rfl
    have he : partition_point_range v.range_count
        (fun idx => match DatabaseView.range_postal_code bytes v idx with
          | none => true
          | some code => decide (code ≤ encode_pc normalized)) =
      partition_point_range db.ranges.length
        (fun idx => decide ((db.ranges.getD idx ⟨0, 0, 0, 0, 0⟩).postal_code ≤
          encode_pc normalized)) := by
      rw [hcount]
      unfold partition_point_range
      exact ppGo_congr _ _ db.ranges.length hpred2 db.ranges.length 0
        db.ranges.length le_rfl
    have hS_le : partition_point_range db.ranges.length
        (fun idx => decide ((db.ranges.getD idx ⟨0, 0, 0, 0, 0⟩).postal_code <
          encode_pc normalized)) ≤ db.ranges.length :=
      ppGo_le _ _ _ _ (by omega)
    have hE_le : partition_point_range db.ranges.length
        (fun idx => decide ((db.ranges.getD idx ⟨0, 0, 0, 0, 0⟩).postal_code ≤
          encode_pc normalized)) ≤ db.ranges.length :=
      ppGo_le _ _ _ _ (by omega)
    have main : viewScan bytes v (encode_pc normalized) hn
        (partition_point_range v.range_count
          (fun idx => match DatabaseView.range_postal_code bytes v idx with
            | none => true
            | some code => decide (code < encode_pc normalized)))
        ((partition_point_range v.range_count
          (fun idx => match DatabaseView.range_postal_code bytes v idx with
            | none => true
            | some code => decide (code ≤ encode_pc normalized))) -
         (partition_point_range v.range_count
          (fun idx => match DatabaseView.range_postal_code bytes v idx with
            | none => true
            | some code => decide (code < encode_pc normalized)))) =
        dbScan db hn
        (partition_point_range db.ranges.length
          (fun idx => decide ((db.ranges.getD idx ⟨0, 0, 0, 0, 0⟩).postal_code <
            encode_pc normalized)))
        ((partition_point_range db.ranges.length
          (fun idx => decide ((db.ranges.getD idx ⟨0, 0, 0, 0, 0⟩).postal_code ≤
            encode_pc normalized))) -
         (partition_point_range db.ranges.length
          (fun idx => decide ((db.ranges.getD idx ⟨0, 0, 0, 0, 0⟩).postal_code <
            encode_pc normalized)))) := by
      rw [hs, he]
      exact scan_agree bytes v db (encode_pc normalized) hn hcount.symm hrange hnov
        hlocname hpsname _ _ (by omega)
    exact main
/-- Witness data for the lookup-agreement theorem: a small encoded
database both loaders accept, with no overflowing range. -/
def c2wdb : Database := ⟨[[65]], [[66]], [⟨1, 2, 3, 0, 0⟩]⟩

def c2wbytes : List Nat := c2wdb.write_database 1 1 1

def c2wview : DatabaseView := ⟨1, 1, 1, 36, 44, 45, 45, 53, 54, 54⟩

theorem lookup_agreement_witness :
    Database.from_reader c2wbytes = Except.ok c2wdb ∧
      DatabaseView.from_bytes c2wbytes = Except.ok c2wview ∧
      (∀ r ∈ c2wdb.ranges, r.start + r.length < 2 ^ 32) ∧
      DatabaseView.lookup c2wbytes c2wview [49, 50, 51, 52, 65, 66] 2 =
        Database.lookup c2wdb [49, 50, 51, 52, 65, 66] 2 :=
  ⟨by rfl, by rfl, by decide,
    lookup_agreement c2wbytes c2wdb c2wview (by rfl) (by rfl) (by decide)
      [49, 50, 51, 52, 65, 66] 2⟩

/-- C2 counterexample data: the first range's `start + length` overflows
`u32`; both loaders accept the stream. -/
def c2db : Database :=
  ⟨[[65]], [[66]],
    [⟨encode_pc [49, 50, 51, 52, 65, 66], 2 ^ 32 - 1, 1, 0, 0⟩,
      ⟨encode_pc [49, 50, 51, 52, 65, 66], 5, 0, 0, 0⟩]⟩

def c2bytes : List Nat := c2db.write_database 1 1 2

def c2view : DatabaseView := ⟨1, 1, 2, 36, 44, 45, 45, 53, 54, 54⟩

/-- C2 counterexample: both loaders accept the same stream, yet on
postal code `1234AB`, house number 5, the owned lookup skips the
overflowing range and finds a match while the zero-copy lookup aborts
with `none`. -/
theorem lookup_disagreement :
    Database.from_reader c2bytes = Except.ok c2db ∧
      DatabaseView.from_bytes c2bytes = Except.ok c2view ∧
      Database.lookup c2db [49, 50, 51, 52, 65, 66] 5 = some ([66], [65]) ∧
      DatabaseView.lookup c2bytes c2view [49, 50, 51, 52, 65, 66] 5 = none :=
  ⟨by rfl, by rfl, by rfl, by rfl⟩
/-! ### C4: `from_bytes` never panics -/

/-- Debug-mode `usize` addition: `none` models the arithmetic-overflow
panic of an unchecked `a + b`. -/
def usizeAdd (a b : Nat) : Option Nat :=
  if a + b < 2 ^ 64 then some (a + b) else none

/-- `read_u32_bytes` with its one unchecked operation (`offset + 4` in
`bytes.get(offset..offset + 4)`) instrumented: the outer `none` is a
panic, the inner option is the function's own result. -/
def read_u32_bytes_chk (bytes : List Nat) (offset : Nat) : Option (Option Nat) :=
  match usizeAdd offset 4 with
  | none => none
  | some e =>
    some (if e ≤ bytes.length then some (leVal ((bytes.drop offset).take 4)) else none)

def offsets_iter_read_chk (bytes : List Nat) (base index : Nat) :
    Option (Except DatabaseError Nat) :=
  if index * 4 < 2 ^ 64 ∧ base + index * 4 < 2 ^ 64 then
    match read_u32_bytes_chk bytes (base + index * 4) with
    | none => none
    | some (some v) => some (Except.ok v)
    | some none => some (Except.error DatabaseError.TooShort)
  else
    some (Except.error DatabaseError.InvalidLayout)

def validate_offsets_bytes_go_chk (bytes : List Nat) (base : Nat) (prev index : Nat) :
    Nat → Option (Except DatabaseError Nat)
  | 0 => some (Except.ok prev)
  | n + 1 =>
    match offsets_iter_read_chk bytes base index with
    | none => none
    | some (Except.error e) => some (Except.error e)
    | some (Except.ok v) =>
      if v < prev then some (Except.error DatabaseError.InvalidLayout)
      else validate_offsets_bytes_go_chk bytes base v (index + 1) n

def validate_offsets_bytes_chk (bytes : List Nat) (base count : Nat) :
    Option (Except DatabaseError Nat) :=
  match count with
  | 0 => some (Except.error DatabaseError.InvalidLayout)
  | n + 1 =>
    match offsets_iter_read_chk bytes base 0 with
    | none => none
    | some (Except.error e) => some (Except.error e)
    | some (Except.ok first) =>
      if first ≠ 0 then some (Except.error DatabaseError.InvalidLayout)
      else validate_offsets_bytes_go_chk bytes base first 1 n

theorem read_u32_bytes_chk_eq (bytes : List Nat) (offset : Nat)
    (h : offset + 4 < 2 ^ 64) :
    read_u32_bytes_chk bytes offset = some (read_u32_bytes bytes offset) := by
  unfold read_u32_bytes_chk usizeAdd read_u32_bytes
  rw [if_pos h]

theorem offsets_iter_read_chk_eq (bytes : List Nat) (base index : Nat)
    (h : base + (index + 1) * 4 < 2 ^ 64) :
    offsets_iter_read_chk bytes base index = some (offsets_iter_read bytes base index) := by
  unfold offsets_iter_read_chk offsets_iter_read
  by_cases hg : index * 4 < 2 ^ 64 ∧ base + index * 4 < 2 ^ 64
  · rw [if_pos hg, if_pos hg]
    rw [read_u32_bytes_chk_eq bytes (base + index * 4) (by omega)]
    cases read_u32_bytes bytes (base + index * 4) <;> rfl
  · rw [if_neg hg, if_neg hg]

theorem validate_offsets_bytes_go_chk_eq (bytes : List Nat) (base : Nat) :
    ∀ (n prev index : Nat), base + (index + n) * 4 < 2 ^ 64 →
      validate_offsets_bytes_go_chk bytes base prev index n =
        some (validate_offsets_bytes_go bytes base prev index n) := by
  intro n
  induction n with
  | zero =>
    intro prev index _
    rfl
  | succ m ih =>
    intro prev index h
    unfold validate_offsets_bytes_go_chk validate_offsets_bytes_go
    rw [offsets_iter_read_chk_eq bytes base index (by omega)]
    cases offsets_iter_read bytes base index with
    | error e => rfl
    | ok v =>
      dsimp only
      by_cases hv : v < prev
      · rw [if_pos hv, if_pos hv]
      · rw [if_neg hv, if_neg hv]
        exact ih v (index + 1) (by omega)

theorem validate_offsets_bytes_chk_eq (bytes : List Nat) (base count : Nat)
    (h : base + count * 4 + 4 < 2 ^ 64) :
    validate_offsets_bytes_chk bytes base count =
      some (validate_offsets_bytes bytes base count) := by
  unfold validate_offsets_bytes_chk validate_offsets_bytes
  cases count with
  | zero => rfl
  | succ n =>
    rw [offsets_iter_read_chk_eq bytes base 0 (by omega)]
    cases offsets_iter_read bytes base 0 with
    | error e => rfl
    | ok first =>
      dsimp only
      by_cases hf : first ≠ 0
      · rw [if_pos hf, if_pos hf]
      · rw [if_neg hf, if_neg hf]
        exact validate_offsets_bytes_go_chk_eq bytes base n first 1 (by omega)
/-- `DatabaseView::from_bytes` with the offsets-validation loops
panic-instrumented (all other arithmetic in the source is `checked_*`,
already modelled by explicit guards). -/
def DatabaseView.from_bytes_chk (bytes : List Nat) :
    Option (Except DatabaseError DatabaseView) :=
  match Header.from_bytes bytes with
  | Except.error e => some (Except.error e)
  | Except.ok header =>
    match header.locality_offsets_len with
    | Except.error e => some (Except.error e)
    | Except.ok locality_offsets_len =>
      if header.locality_offsets_offset + locality_offsets_len ≥ 2 ^ 64 then
        some (Except.error DatabaseError.InvalidLayout)
      else
        match header.expected_locality_data_offset with
        | Except.error e => some (Except.error e)
        | Except.ok expected_locality_data_offset =>
          if header.locality_offsets_offset + locality_offsets_len > bytes.length ∨
              header.locality_data_offset ≠ expected_locality_data_offset then
            some (Except.error DatabaseError.InvalidLayout)
          else
            match validate_offsets_bytes_chk bytes header.locality_offsets_offset
                (header.locality_count + 1) with
            | none => none
            | some (Except.error e) => some (Except.error e)
            | some (Except.ok locality_data_len) =>
              if locality_data_len = 0 ∧ header.locality_count ≠ 0 then
                some (Except.error DatabaseError.InvalidLayout)
              else
                match header.expected_public_space_offsets_offset locality_data_len with
                | Except.error e => some (Except.error e)
                | Except.ok public_space_offsets_expected =>
                  if header.public_space_offsets_offset ≠ public_space_offsets_expected then
                    some (Except.error DatabaseError.InvalidLayout)
                  else
                    match header.public_space_offsets_len with
                    | Except.error e => some (Except.error e)
                    | Except.ok public_space_offsets_len =>
                      if header.public_space_offsets_offset + public_space_offsets_len ≥
                          2 ^ 64 then
                        some (Except.error DatabaseError.InvalidLayout)
                      else
                        match header.expected_public_space_data_offset with
                        | Except.error e => some (Except.error e)
                        | Except.ok expected_public_space_data_offset =>
                          if header.public_space_offsets_offset + public_space_offsets_len >
                              bytes.length ∨
                              header.public_space_data_offset ≠
                                expected_public_space_data_offset then
                            some (Except.error DatabaseError.InvalidLayout)
                          else
                            match validate_offsets_bytes_chk bytes
                                header.public_space_offsets_offset
                                (header.public_space_count + 1) with
                            | none => none
                            | some (Except.error e) => some (Except.error e)
                            | some (Except.ok public_space_data_len) =>
                              if public_space_data_len = 0 ∧
                                  header.public_space_count ≠ 0 then
                                some (Except.error DatabaseError.InvalidLayout)
                              else
                                match header.expected_ranges_offset public_space_data_len with
                                | Except.error e => some (Except.error e)
                                | Except.ok ranges_expected =>
                                  if header.ranges_offset ≠ ranges_expected then
                                    some (Except.error DatabaseError.InvalidLayout)
                                  else if header.range_count * RANGE_RECORD_SIZE ≥ 2 ^ 64 then
                                    some (Except.error DatabaseError.InvalidLayout)
                                  else if header.ranges_offset +
                                      header.range_count * RANGE_RECORD_SIZE ≥ 2 ^ 64 then
                                    some (Except.error DatabaseError.InvalidLayout)
                                  else if header.ranges_offset +
                                      header.range_count * RANGE_RECORD_SIZE > bytes.length then
                                    some (Except.error DatabaseError.InvalidLayout)
                                  else
                                    some (Except.ok
                                      ⟨header.locality_count, header.public_space_count,
                                        header.range_count, header.locality_offsets_offset,
                                        header.locality_data_offset,
                                        header.public_space_offsets_offset,
                                        header.public_space_offsets_offset,
                                        header.public_space_data_offset,
                                        header.ranges_offset, header.ranges_offset⟩)
theorem leVal_lt_pow (l : List Nat) (hb : ∀ b ∈ l, b < 256) :
    leVal l < 256 ^ l.length := by
  induction l with
  | nil => norm_num [leVal]
  | cons b rest ih =>
    have hbb : b < 256 := hb b (List.mem_cons_self _ _)
    have hr : leVal rest < 256 ^ rest.length :=
      ih (fun x hx => hb x (List.mem_cons_of_mem _ hx))
    have hstep : leVal (b :: rest) = b + 256 * leVal rest := rfl
    have h1 : b + 256 * leVal rest + 1 ≤ 256 * (leVal rest + 1) := by omega
    have h2 : 256 * (leVal rest + 1) ≤ 256 * 256 ^ rest.length :=
      Nat.mul_le_mul_left 256 (by omega)
    have h3 : (256 : Nat) ^ (rest.length + 1) = 256 ^ rest.length * 256 := pow_succ 256 _
    simp only [hstep, List.length_cons]
    omega

theorem leVal_slice_lt (bytes : List Nat) (k : Nat)
    (hb : ∀ b ∈ bytes, b < 256) :
    leVal ((bytes.drop k).take 4) < 2 ^ 32 := by
  have hmem : ∀ b ∈ (bytes.drop k).take 4, b < 256 := fun b hx =>
    hb b (List.mem_of_mem_drop (List.mem_of_mem_take hx))
  have hlen : ((bytes.drop k).take 4).length ≤ 4 := by
    simp [List.length_take]
  have h1 := leVal_lt_pow _ hmem
  have h2 : (256 : Nat) ^ ((bytes.drop k).take 4).length ≤ 256 ^ 4 :=
    Nat.pow_le_pow_right (by norm_num) hlen
  have h3 : (256 : Nat) ^ 4 = 2 ^ 32 := by norm_num
  omega

/-- On genuine byte input the parsed header's counts and offsets are
`u32` values. -/
theorem header_fields_lt {bytes : List Nat} {h : Header}
    (hok : Header.from_bytes bytes = Except.ok h)
    (hb : ∀ b ∈ bytes, b < 256) :
    h.locality_count < 2 ^ 32 ∧ h.public_space_count < 2 ^ 32 ∧
      h.locality_offsets_offset < 2 ^ 32 ∧ h.public_space_offsets_offset < 2 ^ 32 := by
  unfold Header.from_bytes at hok
  split at hok
  · exact Except.noConfusion hok
  next hlen =>
    split at hok
    · exact Except.noConfusion hok
    next hp rest hfr =>
      obtain hhp := Except.ok.injEq .. ▸ hok
      subst hhp
      obtain ⟨hcon, -, -, -⟩ := from_readerM_ok_inv hfr
      rw [hcon]
      exact ⟨leVal_slice_lt bytes 4 hb, leVal_slice_lt bytes 8 hb,
        leVal_slice_lt bytes 16 hb, leVal_slice_lt bytes 24 hb⟩
/-- Well-formedness of a view produced by `from_bytes`: the validated
section geometry. -/
def ViewWF (bytes : List Nat) (v : DatabaseView) : Prop :=
  v.locality_offsets_offset = 36 ∧
    v.locality_data_end = v.public_space_offsets_offset ∧
    v.public_space_data_end = v.ranges_offset ∧
    v.ranges_offset + v.range_count * 16 < 2 ^ 64 ∧
    v.ranges_offset + v.range_count * 16 ≤ bytes.length

theorem from_bytes_wf {bytes : List Nat} {v : DatabaseView}
    (h : DatabaseView.from_bytes bytes = Except.ok v) : ViewWF bytes v := by
  obtain ⟨header, rest, hfr, hveq, h64, hlen⟩ := from_bytes_ok_facts h
  obtain ⟨-, hlo, -, -⟩ := from_readerM_ok_inv hfr
  subst hveq
  exact ⟨hlo, rfl, rfl, h64, hlen⟩

/-- C4: on byte input, `DatabaseView::from_bytes` never panics — the
panic-instrumented clone returns `some` of the plain result on every
input — and an `Ok` view satisfies the validated geometry. -/
theorem from_bytes_no_panic (bytes : List Nat) (hb : ∀ b ∈ bytes, b < 256) :
    DatabaseView.from_bytes_chk bytes = some (DatabaseView.from_bytes bytes) ∧
      ∀ v, DatabaseView.from_bytes bytes = Except.ok v → ViewWF bytes v := by
  refine ⟨?_, fun v hv => from_bytes_wf hv⟩
  unfold DatabaseView.from_bytes_chk DatabaseView.from_bytes
  cases hH : Header.from_bytes bytes with
  | error e => rfl
  | ok header =>
    obtain ⟨hlc, hpc, hloo, hpsoo⟩ := header_fields_lt hH hb
    dsimp only
    cases header.locality_offsets_len with
    | error e => rfl
    | ok lol =>
      dsimp only
      by_cases c1 : header.locality_offsets_offset + lol ≥ 2 ^ 64
      · rw [if_pos c1, if_pos c1]
      rw [if_neg c1, if_neg c1]
      cases header.expected_locality_data_offset with
      | error e => rfl
      | ok eldo =>
        dsimp only
        by_cases c2 : header.locality_offsets_offset + lol > bytes.length ∨
            header.locality_data_offset ≠ eldo
        · rw [if_pos c2, if_pos c2]
        rw [if_neg c2, if_neg c2]
        rw [validate_offsets_bytes_chk_eq bytes header.locality_offsets_offset
          (header.locality_count + 1) (by omega)]
        cases validate_offsets_bytes bytes header.locality_offsets_offset
            (header.locality_count + 1) with
        | error e => rfl
        | ok locLen =>
          dsimp only
          by_cases c3 : locLen = 0 ∧ header.locality_count ≠ 0
          · rw [if_pos c3, if_pos c3]
          rw [if_neg c3, if_neg c3]
          cases header.expected_public_space_offsets_offset locLen with
          | error e => rfl
          | ok psoexp =>
            dsimp only
            by_cases c4 : header.public_space_offsets_offset ≠ psoexp
            · rw [if_pos c4, if_pos c4]
            rw [if_neg c4, if_neg c4]
            cases header.public_space_offsets_len with
            | error e => rfl
            | ok psol =>
              dsimp only
              by_cases c5 : header.public_space_offsets_offset + psol ≥ 2 ^ 64
              · rw [if_pos c5, if_pos c5]
              rw [if_neg c5, if_neg c5]
              cases header.expected_public_space_data_offset with
              | error e => rfl
              | ok epsd =>
                dsimp only
                by_cases c6 : header.public_space_offsets_offset + psol > bytes.length ∨
                    header.public_space_data_offset ≠ epsd
                · rw [if_pos c6, if_pos c6]
                rw [if_neg c6, if_neg c6]
                rw [validate_offsets_bytes_chk_eq bytes header.public_space_offsets_offset
                  (header.public_space_count + 1) (by omega)]
                cases validate_offsets_bytes bytes header.public_space_offsets_offset
                    (header.public_space_count + 1) with
                | error e => rfl
                | ok psLen =>
                  dsimp only
                  by_cases c7 : psLen = 0 ∧ header.public_space_count ≠ 0
                  · rw [if_pos c7, if_pos c7]
                  rw [if_neg c7, if_neg c7]
                  cases header.expected_ranges_offset psLen with
                  | error e => rfl
                  | ok roexp =>
                    dsimp only
                    by_cases c8 : header.ranges_offset ≠ roexp
                    · rw [if_pos c8, if_pos c8]
                    rw [if_neg c8, if_neg c8]
                    by_cases c9 : header.range_count * RANGE_RECORD_SIZE ≥ 2 ^ 64
                    · rw [if_pos c9, if_pos c9]
                    rw [if_neg c9, if_neg c9]
                    by_cases c10 : header.ranges_offset +
                        header.range_count * RANGE_RECORD_SIZE ≥ 2 ^ 64
                    · rw [if_pos c10, if_pos c10]
                    rw [if_neg c10, if_neg c10]
                    by_cases c11 : header.ranges_offset +
                        header.range_count * RANGE_RECORD_SIZE > bytes.length
                    · rw [if_pos c11, if_pos c11]
                    rw [if_neg c11, if_neg c11]

theorem from_bytes_no_panic_witness :
    (∀ b ∈ c2wbytes, b < 256) ∧
      (DatabaseView.from_bytes_chk c2wbytes = some (DatabaseView.from_bytes c2wbytes) ∧
        ∀ v, DatabaseView.from_bytes c2wbytes = Except.ok v → ViewWF c2wbytes v) :=
  ⟨by decide, from_bytes_no_panic c2wbytes (by decide)⟩

end BagDb
